import Mathlib

/-!
Verification of the core pipeline of the investor-database repository:
value parsers (batch_transforms.py), canonical firm extraction and the
quarantine sweep (gold_extraction.py), union-find clustering of matches
(firm_linker.py / fund_linker.py), co-investment edge generation and
bounded-hop network traversal (co_investment.py), and hybrid search
(hybrid_search.py).  Each definition is a shallow embedding of the named
source function; SQL statements are embedded as list-processing functions
over explicit table states, Python dicts as association lists, and numeric
values (Decimal, float, NUMERIC) as exact rationals.
-/

namespace InvestorDB

/-! ## Python value model

The parsers in batch_transforms.py take an arbitrary cell value.  The values
the pipeline feeds them are None, ints, floats and strings; floats are
modelled as exact rationals (the spreadsheet readings are decimal literals). -/

inductive PyVal where
  | pynone : PyVal
  | pyint : Int → PyVal
  | pyfloat : ℚ → PyVal
  | pystr : String → PyVal
deriving DecidableEq

/-- Python str.strip on a character list: drop whitespace at both ends. -/
def stripList (l : List Char) : List Char :=
  ((l.dropWhile Char.isWhitespace).reverse.dropWhile Char.isWhitespace).reverse

/-- Python str.strip. -/
def pyStrip (s : String) : String := String.mk (stripList s.data)

/-- Python str.lower (the pipeline's inputs are ASCII-cased). -/
def pyLower (s : String) : String := String.mk (s.data.map Char.toLower)

/-- Case-insensitive test that the lowercase pattern starts the text. -/
def lcStartsWith : List Char → List Char → Bool
  | [], _ => true
  | _ :: _, [] => false
  | p :: ps, c :: cs => (p == c.toLower) && lcStartsWith ps cs

/-- Case-insensitive substring search, as re.search of a literal pattern. -/
def lcHas (pat : List Char) : List Char → Bool
  | [] => lcStartsWith pat []
  | c :: cs => lcStartsWith pat (c :: cs) || lcHas pat cs

/-- Case-insensitive test of the last character, as an anchored search. -/
def endsWithLC (c : Char) (l : List Char) : Bool :=
  match l.getLast? with
  | some d => d.toLower == c
  | none => false

def digitVal (c : Char) : Nat := c.toNat - 48

def digitsToNat (ds : List Char) : Nat := ds.foldl (fun a c => 10 * a + digitVal c) 0

/-- Mantissa of a Python numeric literal: integer digits with an optional
point and fraction digits, at least one digit overall.  Returns the value
and the unconsumed tail. -/
def parseMantissa (l : List Char) : Option (ℚ × List Char) :=
  let ip := l.takeWhile Char.isDigit
  let r1 := l.dropWhile Char.isDigit
  match r1 with
  | '.' :: r2 =>
    let fp := r2.takeWhile Char.isDigit
    let r3 := r2.dropWhile Char.isDigit
    if ip.isEmpty && fp.isEmpty then none
    else some ((digitsToNat ip : ℚ) + (digitsToNat fp : ℚ) / ((10 : ℚ) ^ fp.length), r3)
  | _ => if ip.isEmpty then none else some ((digitsToNat ip : ℚ), r1)

/-- Exponent digits with an already-consumed sign; fails on an empty or
non-digit tail, as the Python constructors do. -/
def parseExpDigits (sign : Int) (l : List Char) : Option Int :=
  if l.isEmpty then none
  else if l.all Char.isDigit then some (sign * (digitsToNat l : Int)) else none

/-- Apply an exponent tail (after the e or E marker) to a mantissa value. -/
def expApply (q : ℚ) (t : List Char) : Option ℚ :=
  match t with
  | '+' :: r => (parseExpDigits 1 r).map (fun e => q * (10 : ℚ) ^ e)
  | '-' :: r => (parseExpDigits (-1) r).map (fun e => q * (10 : ℚ) ^ e)
  | r => (parseExpDigits 1 r).map (fun e => q * (10 : ℚ) ^ e)

/-- Tail after the mantissa: end of string, or an exponent part. -/
def parseNumTail (q : ℚ) (l : List Char) : Option ℚ :=
  match l with
  | [] => some q
  | 'e' :: t => expApply q t
  | 'E' :: t => expApply q t
  | _ => none

/-- Python numeric-literal parsing shared by the source's Decimal(...) and
float(...) calls on this pipeline's inputs: optional sign, digits with an
optional decimal point, optional exponent.  The special values (nan, inf) and
underscore digit separators of the full Python grammar never occur in the
spreadsheet data and are not modelled.  Returns none exactly where the
Python constructor raises, which every caller catches. -/
def parseNumQ (l : List Char) : Option ℚ :=
  match l with
  | '+' :: t => (parseMantissa t).bind (fun p => parseNumTail p.1 p.2)
  | '-' :: t => ((parseMantissa t).bind (fun p => parseNumTail p.1 p.2)).map (fun q => -q)
  | t => (parseMantissa t).bind (fun p => parseNumTail p.1 p.2)

/-! ## Float display for str()

parse_currency calls str(value) on every non-None input; for floats the
result is the shortest decimal form, with a trailing .0 on integral values.
Scientific display for extreme magnitudes is not reached by this data and is
not modelled. -/

/-- Truncation of a rational toward zero, as Python int() on a float. -/
def ratTrunc (q : ℚ) : Int := Int.tdiv q.num (q.den : Int)

/-- Decimal digits of a rational in the interval zero to one, most
significant first, up to the given count. -/
def fracDigitsAux : Nat → ℚ → List Char
  | 0, _ => []
  | n + 1, q =>
    if q = 0 then []
    else
      let q10 := q * 10
      let d := (ratTrunc q10).toNat
      Nat.digitChar d :: fracDigitsAux n (q10 - (d : ℚ))

/-- Textual form of a Python float modelled as a rational. -/
def qFloatStr (q : ℚ) : String :=
  let sgn := if q < 0 then "-" else ""
  let a := |q|
  let ipart := (ratTrunc a).toNat
  let frac := fracDigitsAux 64 (a - (ipart : ℚ))
  sgn ++ toString ipart ++ "." ++ (if frac.isEmpty then "0" else String.mk frac)

/-- Python str() on the modelled values. -/
def pyvalStr : PyVal → String
  | .pynone => "None"
  | .pyint n => toString n
  | .pyfloat q => qFloatStr q
  | .pystr s => s

/-! ## parse_currency (batch_transforms.py lines 168-201) -/

def currencyPlaceholders : List String := ["n/a", "na", "-", "undisclosed"]

def currencySymbols : List Char := ['$', '€', '£', '¥', ',']

/-- The re.sub removing currency symbols and separators. -/
def removeCurrencySymbols (l : List Char) : List Char :=
  l.filter (fun c => !(currencySymbols.contains c))

def bnPat : List Char := ['b', 'n']
def billionPat : List Char := ['b', 'i', 'l', 'l', 'i', 'o', 'n']
def mnPat : List Char := ['m', 'n']
def millionPat : List Char := ['m', 'i', 'l', 'l', 'i', 'o', 'n']
def thousandPat : List Char := ['t', 'h', 'o', 'u', 's', 'a', 'n', 'd']

/-- re.search of bn, billion, or b at end of string, case-insensitive. -/
def hasBillionMark (l : List Char) : Bool :=
  lcHas bnPat l || lcHas billionPat l || endsWithLC 'b' l

/-- re.search of mn, million, or m at end of string, case-insensitive. -/
def hasMillionMark (l : List Char) : Bool :=
  lcHas mnPat l || lcHas millionPat l || endsWithLC 'm' l

/-- re.search of k or thousand anywhere, case-insensitive. -/
def hasThousandMark (l : List Char) : Bool :=
  lcHas ['k'] l || lcHas thousandPat l

/-- re.sub removing bn, billion and a final b, scanning left to right over
the original positions with the alternatives tried in the regex order. -/
def subBillion : List Char → List Char
  | [] => []
  | c :: rest =>
    if lcStartsWith bnPat (c :: rest) then subBillion (rest.drop 1)
    else if lcStartsWith billionPat (c :: rest) then subBillion (rest.drop 6)
    else if c.toLower == 'b' && rest.isEmpty then subBillion rest
    else c :: subBillion rest
termination_by l => l.length
decreasing_by
  all_goals simp only [List.length_drop, List.length_cons]
  all_goals omega

/-- re.sub removing mn, million and a final m. -/
def subMillion : List Char → List Char
  | [] => []
  | c :: rest =>
    if lcStartsWith mnPat (c :: rest) then subMillion (rest.drop 1)
    else if lcStartsWith millionPat (c :: rest) then subMillion (rest.drop 6)
    else if c.toLower == 'm' && rest.isEmpty then subMillion rest
    else c :: subMillion rest
termination_by l => l.length
decreasing_by
  all_goals simp only [List.length_drop, List.length_cons]
  all_goals omega

/-- re.sub removing k and thousand. -/
def subThousand : List Char → List Char
  | [] => []
  | c :: rest =>
    if c.toLower == 'k' then subThousand rest
    else if lcStartsWith thousandPat (c :: rest) then subThousand (rest.drop 7)
    else c :: subThousand rest
termination_by l => l.length
decreasing_by
  all_goals simp only [List.length_drop, List.length_cons]
  all_goals omega

/-- Embeds parse_currency of batch_transforms.py: placeholder and empty
strings yield none, currency symbols are stripped, a magnitude suffix is
detected and removed, and the remaining Decimal literal is scaled.  The
Decimal value is modelled as an exact rational. -/
def parse_currency (v : PyVal) : Option ℚ :=
  match v with
  | .pynone => none
  | _ =>
    let value_str := pyStrip (pyvalStr v)
    if value_str.isEmpty || currencyPlaceholders.contains (pyLower value_str) then none
    else
      let cleaned := removeCurrencySymbols value_str.data
      let scaled :=
        if hasBillionMark cleaned then ((1000000000 : ℚ), subBillion cleaned)
        else if hasMillionMark cleaned then ((1000000 : ℚ), subMillion cleaned)
        else if hasThousandMark cleaned then ((1000 : ℚ), subThousand cleaned)
        else ((1 : ℚ), cleaned)
      match parseNumQ (stripList scaled.2) with
      | some b => some (b * scaled.1)
      | none => none

/-! ## parse_year (batch_transforms.py lines 250-270) -/

/-- Python regex word character, ASCII range. -/
def isWordChar (c : Char) : Bool := c.isAlphanum || c == '_'

/-- Leftmost match of a four-digit year 19xx or 20xx between word
boundaries, as re.search of the source's pattern. -/
def yearScan : Option Char → List Char → Option Nat
  | _, [] => none
  | prev, c1 :: rest =>
    match rest with
    | c2 :: c3 :: c4 :: rest2 =>
      let okL := match prev with
        | none => true
        | some p => !(isWordChar p)
      let okR := match rest2 with
        | [] => true
        | d :: _ => !(isWordChar d)
      let lead := (c1 == '1' && c2 == '9') || (c1 == '2' && c2 == '0')
      if okL && lead && c3.isDigit && c4.isDigit && okR then
        some (digitsToNat [c1, c2, c3, c4])
      else yearScan (some c1) rest
    | _ => none

/-- Embeds parse_year of batch_transforms.py: numeric values are truncated
to an int and checked against the 1900-2100 range; strings are searched for
a four-digit year. -/
def parse_year (v : PyVal) : Option Int :=
  match v with
  | .pynone => none
  | .pyint n => if 1900 ≤ n ∧ n ≤ 2100 then some n else none
  | .pyfloat q =>
    let n := ratTrunc q
    if 1900 ≤ n ∧ n ≤ 2100 then some n else none
  | .pystr s => (yearScan none (pyStrip s).data).map (fun y => (y : Int))

/-! ## parse_percentage (batch_transforms.py lines 273-302) -/

def naPlaceholders : List String := ["n/a", "na", "-"]

/-- Numeric branch of parse_percentage: small values are already decimal,
mid-range values are percentage points, others yield none. -/
def pctOfNum (x : ℚ) : Option ℚ :=
  if -1 ≤ x ∧ x ≤ 1 then some x
  else if -100 ≤ x ∧ x ≤ 100 then some (x / 100)
  else none

/-- Embeds parse_percentage of batch_transforms.py. -/
def parse_percentage (v : PyVal) : Option ℚ :=
  match v with
  | .pynone => none
  | .pyint n => pctOfNum (n : ℚ)
  | .pyfloat q => pctOfNum q
  | .pystr s =>
    let value_str := pyStrip s
    if value_str.isEmpty || naPlaceholders.contains (pyLower value_str) then none
    else
      let cleaned := stripList (value_str.data.filter (fun c => !(c == '%')))
      match parseNumQ cleaned with
      | none => none
      | some num => if -100 ≤ num ∧ num ≤ 200 then some (num / 100) else some num

/-! ## parse_date (batch_transforms.py lines 204-247)

The strptime calls over the source's fixed format list are modelled by a
small format interpreter: numeric directives follow the strptime regex
alternations (two digits in range preferred, else one), month-name
directives use the C-locale names case-insensitively, whitespace in a
format matches a run of whitespace, and the parsed fields must consume the
whole string and form a valid Gregorian date, otherwise the next format is
tried — exactly the ValueError-and-continue flow of the source. -/

inductive DateTok where
  | dirY : DateTok
  | dirDay : DateTok
  | dirMonth : DateTok
  | dirMonAbbr : DateTok
  | dirMonFull : DateTok
  | spaceTok : DateTok
  | lit : Char → DateTok
deriving DecidableEq

def fmtIsoDash : List DateTok := [.dirY, .lit '-', .dirMonth, .lit '-', .dirDay]
def fmtDmySlash : List DateTok := [.dirDay, .lit '/', .dirMonth, .lit '/', .dirY]
def fmtMdySlash : List DateTok := [.dirMonth, .lit '/', .dirDay, .lit '/', .dirY]
def fmtYmdSlash : List DateTok := [.dirY, .lit '/', .dirMonth, .lit '/', .dirDay]
def fmtDmyDash : List DateTok := [.dirDay, .lit '-', .dirMonth, .lit '-', .dirY]
def fmtMdyDash : List DateTok := [.dirMonth, .lit '-', .dirDay, .lit '-', .dirY]
def fmtDAbbrY : List DateTok := [.dirDay, .spaceTok, .dirMonAbbr, .spaceTok, .dirY]
def fmtDFullY : List DateTok := [.dirDay, .spaceTok, .dirMonFull, .spaceTok, .dirY]
def fmtAbbrDY : List DateTok := [.dirMonAbbr, .spaceTok, .dirDay, .lit ',', .spaceTok, .dirY]
def fmtFullDY : List DateTok := [.dirMonFull, .spaceTok, .dirDay, .lit ',', .spaceTok, .dirY]

/-- The ordered format list of parse_date. -/
def dateFormats : List (List DateTok) :=
  [fmtIsoDash, fmtDmySlash, fmtMdySlash, fmtYmdSlash, fmtDmyDash, fmtMdyDash,
   fmtDAbbrY, fmtDFullY, fmtAbbrDY, fmtFullDY]

def monthAbbrevs : List (List Char × Nat) :=
  [(['j','a','n'], 1), (['f','e','b'], 2), (['m','a','r'], 3), (['a','p','r'], 4),
   (['m','a','y'], 5), (['j','u','n'], 6), (['j','u','l'], 7), (['a','u','g'], 8),
   (['s','e','p'], 9), (['o','c','t'], 10), (['n','o','v'], 11), (['d','e','c'], 12)]

def monthFulls : List (List Char × Nat) :=
  [(['j','a','n','u','a','r','y'], 1), (['f','e','b','r','u','a','r','y'], 2),
   (['m','a','r','c','h'], 3), (['a','p','r','i','l'], 4), (['m','a','y'], 5),
   (['j','u','n','e'], 6), (['j','u','l','y'], 7), (['a','u','g','u','s','t'], 8),
   (['s','e','p','t','e','m','b','e','r'], 9), (['o','c','t','o','b','e','r'], 10),
   (['n','o','v','e','m','b','e','r'], 11), (['d','e','c','e','m','b','e','r'], 12)]

/-- Case-insensitive month-name alternation. -/
def matchMonthName : List (List Char × Nat) → List Char → Option (Nat × List Char)
  | [], _ => none
  | (pat, n) :: rest, l =>
    if lcStartsWith pat l then some (n, l.drop pat.length) else matchMonthName rest l

/-- strptime day directive: two digits valued 1 to 31 preferred, else a
single nonzero digit. -/
def parseDayTok : List Char → Option (Nat × List Char)
  | c1 :: c2 :: rest =>
    let v2 := digitsToNat [c1, c2]
    if c1.isDigit && c2.isDigit && decide (1 ≤ v2) && decide (v2 ≤ 31) then some (v2, rest)
    else if c1.isDigit && decide (1 ≤ digitVal c1) then some (digitVal c1, c2 :: rest)
    else none
  | [c1] => if c1.isDigit && decide (1 ≤ digitVal c1) then some (digitVal c1, []) else none
  | [] => none

/-- strptime month directive: two digits valued 1 to 12 preferred, else a
single nonzero digit. -/
def parseMonthTok : List Char → Option (Nat × List Char)
  | c1 :: c2 :: rest =>
    let v2 := digitsToNat [c1, c2]
    if c1.isDigit && c2.isDigit && decide (1 ≤ v2) && decide (v2 ≤ 12) then some (v2, rest)
    else if c1.isDigit && decide (1 ≤ digitVal c1) then some (digitVal c1, c2 :: rest)
    else none
  | [c1] => if c1.isDigit && decide (1 ≤ digitVal c1) then some (digitVal c1, []) else none
  | [] => none

/-- strptime year directive: exactly four digits. -/
def parseYearTok : List Char → Option (Nat × List Char)
  | c1 :: c2 :: c3 :: c4 :: rest =>
    if c1.isDigit && c2.isDigit && c3.isDigit && c4.isDigit then
      some (digitsToNat [c1, c2, c3, c4], rest)
    else none
  | _ => none

structure DateParts where
  y : Nat
  m : Nat
  d : Nat
deriving DecidableEq

/-- Run one strptime format over the string, anchored at both ends. -/
def runFormat : List DateTok → List Char → Nat → Nat → Nat → Option DateParts
  | [], [], y, m, d => some ⟨y, m, d⟩
  | [], _ :: _, _, _, _ => none
  | tok :: toks, l, y, m, d =>
    match tok with
    | .dirY =>
      match parseYearTok l with
      | some (v, rest) => runFormat toks rest v m d
      | none => none
    | .dirDay =>
      match parseDayTok l with
      | some (v, rest) => runFormat toks rest y m v
      | none => none
    | .dirMonth =>
      match parseMonthTok l with
      | some (v, rest) => runFormat toks rest y v d
      | none => none
    | .dirMonAbbr =>
      match matchMonthName monthAbbrevs l with
      | some (v, rest) => runFormat toks rest y v d
      | none => none
    | .dirMonFull =>
      match matchMonthName monthFulls l with
      | some (v, rest) => runFormat toks rest y v d
      | none => none
    | .spaceTok =>
      match l with
      | c :: rest =>
        if c.isWhitespace then runFormat toks (rest.dropWhile Char.isWhitespace) y m d
        else none
      | [] => none
    | .lit ch =>
      match l with
      | c :: rest => if c == ch then runFormat toks rest y m d else none
      | [] => none

def isLeapYear (y : Nat) : Bool := y % 4 == 0 && (y % 100 != 0 || y % 400 == 0)

def daysInMonth (y m : Nat) : Nat :=
  if m == 2 then (if isLeapYear y then 29 else 28)
  else if [4, 6, 9, 11].contains m then 30 else 31

/-- The datetime constructor's validation: strptime raises ValueError on an
impossible calendar date and parse_date then tries the next format. -/
def validDate (p : DateParts) : Bool :=
  decide (1 ≤ p.y) && decide (1 ≤ p.m) && decide (p.m ≤ 12) &&
    decide (1 ≤ p.d) && decide (p.d ≤ daysInMonth p.y p.m)

def padNat (width n : Nat) : String :=
  let s := toString n
  String.mk (List.replicate (width - s.length) '0') ++ s

/-- date.isoformat of the parsed fields. -/
def isoOfParts (p : DateParts) : String :=
  padNat 4 p.y ++ "-" ++ padNat 2 p.m ++ "-" ++ padNat 2 p.d

/-- First format in the list that fully matches and yields a valid date. -/
def tryFormats : List (List DateTok) → List Char → Option String
  | [], _ => none
  | f :: fs, l =>
    match runFormat f l 1900 1 1 with
    | some p => if validDate p then some (isoOfParts p) else tryFormats fs l
    | none => tryFormats fs l

/-- re.match of four digits, dash, two digits, dash, two digits at the start. -/
def isoPrefixCheck (l : List Char) : Bool :=
  match l with
  | a :: b :: c :: d :: '-' :: e :: f :: '-' :: g :: h :: _ =>
    a.isDigit && b.isDigit && c.isDigit && d.isDigit &&
      e.isDigit && f.isDigit && g.isDigit && h.isDigit
  | _ => false

/-- Embeds parse_date of batch_transforms.py.  Numeric inputs have no
isoformat attribute and fall through to None, as in the source; the
datetime-object branch is outside the modelled input type. -/
def parse_date (v : PyVal) : Option String :=
  match v with
  | .pynone => none
  | .pystr s0 =>
    let value := pyStrip s0
    if value.isEmpty || naPlaceholders.contains (pyLower value) then none
    else
      match tryFormats dateFormats value.data with
      | some iso => some iso
      | none =>
        if isoPrefixCheck value.data then some (String.mk (value.data.take 10)) else none
  | _ => none

/-! ## extract_firms (gold_extraction.py lines 219-281)

The INSERT ... SELECT DISTINCT ON with ON CONFLICT DO UPDATE is embedded as
a pure function from the silver firm rows and the current gold table to the
new gold table.  DISTINCT ON (COALESCE(source_firm_id, preqin_firm_id)) with
ORDER BY key, source_row_number keeps, per key, the row with the smallest
source row number; the deduplicated rows are then upserted.  Each key occurs
once in the deduplicated batch, so the processing order of distinct keys
does not affect the resulting keyed table contents. -/

structure SilverFirmRow where
  source_firm_id : Option String
  preqin_firm_id : Option String
  source_type : Option String
  firm_name : Option String
  firm_name_normalized : Option String
  firm_type : Option String
  institution_type : Option String
  headquarters_city : Option String
  headquarters_country : Option String
  headquarters_region : Option String
  aum_usd : Option ℚ
  aum_raw : Option String
  dry_powder_usd : Option ℚ
  website : Option String
  description : Option String
  year_founded : Option Int
  source_file : Option String
  source_sheet : Option String
  source_row_number : Nat
  run_id : Option String
deriving DecidableEq

structure GoldFirm where
  source_system : String
  source_id : String
  preqin_id : Option String
  name : String
  name_normalized : Option String
  firm_type : Option String
  institution_type : Option String
  headquarters_city : Option String
  headquarters_country : Option String
  headquarters_region : Option String
  aum_usd : Option ℚ
  aum_raw : Option String
  dry_powder_usd : Option ℚ
  website : Option String
  description : Option String
  year_founded : Option Int
  source_file : Option String
  source_sheet : Option String
  source_row_number : Nat
  run_id : Option String
deriving DecidableEq

/-- COALESCE(source_firm_id, preqin_firm_id), the DISTINCT ON key and the
inserted source_id. -/
def firmKey (r : SilverFirmRow) : Option String :=
  match r.source_firm_id with
  | some v => some v
  | none => r.preqin_firm_id

/-- The WHERE clause: firm_name and the coalesced id must be present. -/
def validFirmRow (r : SilverFirmRow) : Bool :=
  r.firm_name.isSome && (firmKey r).isSome

/-- CASE source_type WHEN gp THEN GP WHEN lp THEN LP ELSE firm_type END. -/
def firmTypeOf (r : SilverFirmRow) : Option String :=
  match r.source_type with
  | some "gp" => some "GP"
  | some "lp" => some "LP"
  | _ => r.firm_type

/-- The SELECT list of extract_firms for one silver row. -/
def goldOfRow (r : SilverFirmRow) : GoldFirm where
  source_system := "preqin"
  source_id := (firmKey r).getD ""
  preqin_id := r.preqin_firm_id
  name := r.firm_name.getD ""
  name_normalized := r.firm_name_normalized
  firm_type := firmTypeOf r
  institution_type := r.institution_type
  headquarters_city := r.headquarters_city
  headquarters_country := r.headquarters_country
  headquarters_region := r.headquarters_region
  aum_usd := r.aum_usd
  aum_raw := r.aum_raw
  dry_powder_usd := r.dry_powder_usd
  website := r.website
  description := r.description
  year_founded := r.year_founded
  source_file := r.source_file
  source_sheet := r.source_sheet
  source_row_number := r.source_row_number
  run_id := r.run_id

/-- DISTINCT ON (key) ... ORDER BY key, source_row_number over the filtered
rows: per key, only the row with the least source row number survives. -/
def firmsDeduped (rows : List SilverFirmRow) : List SilverFirmRow :=
  let sel := rows.filter validFirmRow
  sel.filter (fun r =>
    sel.all (fun r2 => !(firmKey r2 == firmKey r) || decide (r.source_row_number ≤ r2.source_row_number)))

/-- ON CONFLICT (source_system, source_id) DO UPDATE SET: name and
name_normalized are overwritten, aum_usd and dry_powder_usd are COALESCEd so
a null incoming value preserves the stored one, and no other column is
updated; without a conflict the full row is inserted. -/
def upsertFirm (tbl : List GoldFirm) (g : GoldFirm) : List GoldFirm :=
  if tbl.any (fun t => t.source_system == g.source_system && t.source_id == g.source_id) then
    tbl.map (fun t =>
      if t.source_system == g.source_system && t.source_id == g.source_id then
        { t with
          name := g.name
          name_normalized := g.name_normalized
          aum_usd := match g.aum_usd with
            | some v => some v
            | none => t.aum_usd
          dry_powder_usd := match g.dry_powder_usd with
            | some v => some v
            | none => t.dry_powder_usd }
      else t)
  else tbl ++ [g]

/-- Embeds extract_firms of gold_extraction.py as a table transformer. -/
def extract_firms (rows : List SilverFirmRow) (tbl : List GoldFirm) : List GoldFirm :=
  (firmsDeduped rows).foldl (fun acc r => upsertFirm acc (goldOfRow r)) tbl

/-- Lookup of a gold firm by its source identifier (source_system preqin). -/
def goldLookup (tbl : List GoldFirm) (sid : String) : Option GoldFirm :=
  tbl.find? (fun t => t.source_system == "preqin" && t.source_id == sid)

/-! ## Quarantine sweep (gold_extraction.py lines 28-76, models.py 604-638)

PreqinQuarantine declares a UUID primary key and ordinary (non-unique)
indexes only; its table arguments carry no UniqueConstraint.  The sweep's
INSERT therefore conflicts only when the freshly generated id collides, and
its ON CONFLICT DO NOTHING clause otherwise never fires.  gen_random_uuid is
modelled as a fresh-id counter in the state. -/

structure DealInvestorFirmRow where
  id : Nat
  deal_id : Nat
  investor_firm_id : Option Nat
  investor_firm_name_raw : String
  investor_type : Option String
  role_in_deal : Option String
  resolution_method : Option String
  source_file : Option String
deriving DecidableEq

structure QuarantineRecord where
  id : Nat
  source_table : String
  source_record_id : String
  error_type : String
  error_details : String
  raw_deal_id : Nat
  raw_investor_name : String
  raw_investor_type : Option String
  raw_role_in_deal : Option String
  raw_source_file : Option String
  run_id : Option String
  resolved : Bool
deriving DecidableEq

structure QuarantineState where
  table : List QuarantineRecord
  nextId : Nat
deriving DecidableEq

/-- The only unique constraint on preqin_quarantine is its primary key. -/
def quarantineConflict (tbl : List QuarantineRecord) (r : QuarantineRecord) : Bool :=
  tbl.any (fun q => q.id == r.id)

/-- INSERT ... ON CONFLICT DO NOTHING against the quarantine table. -/
def quarantineInsert (tbl : List QuarantineRecord) (r : QuarantineRecord) : List QuarantineRecord :=
  if quarantineConflict tbl r then tbl else tbl ++ [r]

/-- The WHERE clause of the sweep: unresolved investor references. -/
def isUnresolvedInvestor (d : DealInvestorFirmRow) : Bool :=
  d.investor_firm_id.isNone &&
    (d.resolution_method.isNone || d.resolution_method == some "unresolved")

/-- The SELECT list of the sweep's INSERT for one offending row. -/
def quarantineRowOf (fresh : Nat) (d : DealInvestorFirmRow) (run_id : Option String) :
    QuarantineRecord where
  id := fresh
  source_table := "deal_investor_firm"
  source_record_id := toString d.id
  error_type := "unresolved_investor_firm"
  error_details := "Could not resolve investor name to existing firm: " ++ d.investor_firm_name_raw
  raw_deal_id := d.deal_id
  raw_investor_name := d.investor_firm_name_raw
  raw_investor_type := d.investor_type
  raw_role_in_deal := d.role_in_deal
  raw_source_file := d.source_file
  run_id := run_id
  resolved := false

/-- Embeds quarantine_unresolved_investors of gold_extraction.py: one
INSERT ... SELECT over the offending rows, committed on success; on a
database failure the except branch rolls back and returns zero, so the
caller never sees an exception.  Returns the rowcount and the new state. -/
def quarantine_unresolved_investors (st : QuarantineState)
    (difs : List DealInvestorFirmRow) (run_id : Option String) (dbFailure : Bool) :
    Nat × QuarantineState :=
  if dbFailure then (0, st)
  else
    let offenders := difs.filter isUnresolvedInvestor
    let final := offenders.foldl
      (fun s d =>
        QuarantineState.mk (quarantineInsert s.table (quarantineRowOf s.nextId d run_id))
          (s.nextId + 1))
      st
    (final.table.length - st.table.length, final)

/-- Quarantine entries recorded for one offender (same source table and
source record id). -/
def quarantineCountFor (tbl : List QuarantineRecord) (sid : String) : Nat :=
  (tbl.filter (fun q => q.source_table == "deal_investor_firm" && q.source_record_id == sid)).length

/-! ## cluster_matches (firm_linker.py lines 215-252, fund_linker.py 218-255)

Both linkers build the same ad hoc union-find over a Python dict parent:
find inserts a missing key as its own parent, follows parent pointers with
path compression, and union links the two roots; the output dict maps every
key of parent to find of it.  The dict is embedded as an association list,
and the recursion of find, which in Python terminates because parent
pointers are acyclic, is defined by well-founded recursion over the pointer
relation, with the acyclicity proof carried alongside the map. -/

namespace UF

variable {α : Type} [DecidableEq α]

/-- The parent dict of cluster_matches. -/
abbrev PMap (α : Type) := List (α × α)

/-- Dict lookup. -/
def mget (m : PMap α) (x : α) : Option α :=
  match m with
  | [] => none
  | (k, v) :: t => if k = x then some v else mget t x

/-- Dict assignment: overwrite in place, or append a new key. -/
def mset (m : PMap α) (x v : α) : PMap α :=
  match m with
  | [] => [(x, v)]
  | (k, w) :: t => if k = x then (x, v) :: t else (k, w) :: mset t x v

def keys (m : PMap α) : List α := m.map Prod.fst

/-- The parent-pointer relation of the dict: j is the parent of k and
differs from it.  The recursion in find descends along this relation. -/
def pstep (m : PMap α) (j k : α) : Prop := j ≠ k ∧ mget m k = some j

/-- Every stored parent is itself a key; found in every dict the Python
code constructs, and needed to describe the key set of the result. -/
def ClosedP (m : PMap α) : Prop := ∀ x p, mget m x = some p → p ∈ keys m

theorem mget_mset_self (m : PMap α) (x v : α) : mget (mset m x v) x = some v := by
  induction m with
  | nil => simp [mset, mget]
  | cons h t ih =>
    by_cases hk : h.1 = x
    · simp [mset, hk, mget]
    · simpa [mset, hk, mget, Ne.symm hk] using ih

theorem mget_mset_ne (m : PMap α) (x v y : α) (h : y ≠ x) :
    mget (mset m x v) y = mget m y := by
  have hxy : x ≠ y := Ne.symm h
  induction m with
  | nil => simp [mset, mget, hxy]
  | cons hd t ih =>
    by_cases hk : hd.1 = x
    · subst hk
      simp [mset, mget, hxy]
    · simp only [mset, if_neg hk, mget]
      split
      · rfl
      · exact ih

theorem mem_keys_iff_mget (m : PMap α) (x : α) : x ∈ keys m ↔ (mget m x).isSome := by
  induction m with
  | nil => simp [keys, mget]
  | cons hd t ih =>
    by_cases hk : hd.1 = x
    · simp [keys, mget, hk]
    · simp only [keys, List.map_cons, List.mem_cons, mget, if_neg hk] at ih ⊢
      rw [ih]
      have : ¬ x = hd.1 := fun hh => hk hh.symm
      simp [this]

theorem mem_keys_mset (m : PMap α) (x v y : α) :
    y ∈ keys (mset m x v) ↔ y = x ∨ y ∈ keys m := by
  induction m with
  | nil => simp [mset, keys]
  | cons hd t ih =>
    by_cases hk : hd.1 = x
    · subst hk
      simp [mset, keys]
    · simp only [mset, if_neg hk, keys, List.map_cons, List.mem_cons] at ih ⊢
      rw [ih]
      tauto

/-- The body of find restricted to the root computation: follow parent
pointers to the representative, without mutation. -/
def rootBody (m : PMap α) (x : α) (ih : ∀ y, pstep m y x → α) : α :=
  match h : mget m x with
  | none => x
  | some p => if hp : p = x then x else ih p (And.intro hp h)

/-- The representative reached from x by the Python find. -/
def rootCore (m : PMap α) (wf : WellFounded (pstep m)) (x : α) : α :=
  WellFounded.fix wf (rootBody m) x

theorem rootCore_unfold (m : PMap α) (wf : WellFounded (pstep m)) (x : α) :
    rootCore m wf x = rootBody m x (fun y _ => rootCore m wf y) :=
  WellFounded.fix_eq wf (rootBody m) x

theorem rootCore_of_none (m : PMap α) (wf : WellFounded (pstep m)) (x : α)
    (h : mget m x = none) : rootCore m wf x = x := by
  rw [rootCore_unfold]
  unfold rootBody
  split <;> simp_all

theorem rootCore_of_self (m : PMap α) (wf : WellFounded (pstep m)) (x : α)
    (h : mget m x = some x) : rootCore m wf x = x := by
  rw [rootCore_unfold]
  unfold rootBody
  split <;> simp_all

theorem rootCore_of_step (m : PMap α) (wf : WellFounded (pstep m)) (x p : α)
    (h : mget m x = some p) (hp : p ≠ x) : rootCore m wf x = rootCore m wf p := by
  rw [rootCore_unfold]
  unfold rootBody
  split
  · simp_all
  · rename_i p2 h2
    have hpp : p2 = p := by rw [h] at h2; exact (Option.some_inj.mp h2).symm
    subst hpp
    simp [hp]

/-- A root of the dict: its own parent, or absent. -/
def IsRootP (m : PMap α) (x : α) : Prop := mget m x = some x ∨ mget m x = none

theorem rootCore_of_isRoot (m : PMap α) (wf : WellFounded (pstep m)) (r : α)
    (h : IsRootP m r) : rootCore m wf r = r := by
  cases h with
  | inl h => exact rootCore_of_self m wf r h
  | inr h => exact rootCore_of_none m wf r h

theorem isRootP_rootCore (m : PMap α) (wf : WellFounded (pstep m)) (x : α) :
    IsRootP m (rootCore m wf x) := by
  refine wf.induction (C := fun x => IsRootP m (rootCore m wf x)) x ?_
  intro x ih
  cases h : mget m x with
  | none =>
    rw [rootCore_of_none m wf x h]
    exact Or.inr h
  | some p =>
    by_cases hp : p = x
    · rw [hp] at h
      rw [rootCore_of_self m wf x h]
      exact Or.inl h
    · rw [rootCore_of_step m wf x p h hp]
      exact ih p (And.intro hp h)

theorem rootCore_idem (m : PMap α) (wf : WellFounded (pstep m)) (x : α) :
    rootCore m wf (rootCore m wf x) = rootCore m wf x :=
  rootCore_of_isRoot m wf _ (isRootP_rootCore m wf x)

theorem isRootP_of_rootCore_fixed (m : PMap α) (wf : WellFounded (pstep m)) (z : α)
    (h : rootCore m wf z = z) : IsRootP m z := h ▸ isRootP_rootCore m wf z

theorem rootCore_mem_keys (m : PMap α) (wf : WellFounded (pstep m)) (x : α)
    (hc : ClosedP m) (hx : x ∈ keys m) : rootCore m wf x ∈ keys m := by
  refine wf.induction (C := fun x => x ∈ keys m → rootCore m wf x ∈ keys m) x ?_ hx
  intro x ih hx
  cases h : mget m x with
  | none =>
    rw [mem_keys_iff_mget, h] at hx
    simp at hx
  | some p =>
    by_cases hp : p = x
    · rw [hp] at h
      rw [rootCore_of_self m wf x h]
      exact hx
    · rw [rootCore_of_step m wf x p h hp]
      exact ih p (And.intro hp h) (hc x p h)

theorem rootCore_of_not_mem (m : PMap α) (wf : WellFounded (pstep m)) (x : α)
    (hx : x ∉ keys m) : rootCore m wf x = x := by
  apply rootCore_of_none
  cases h : mget m x with
  | none => rfl
  | some p =>
    rw [mem_keys_iff_mget, h] at hx
    simp at hx

/-- Along the parent pointers, a representative that differs from its node
is reachable by at least one step. -/
theorem rootCore_transGen (m : PMap α) (wf : WellFounded (pstep m)) (x : α)
    (hne : rootCore m wf x ≠ x) : Relation.TransGen (pstep m) (rootCore m wf x) x := by
  refine wf.induction
    (C := fun x => rootCore m wf x ≠ x → Relation.TransGen (pstep m) (rootCore m wf x) x) x ?_ hne
  intro x ih hne
  cases h : mget m x with
  | none => exact absurd (rootCore_of_none m wf x h) hne
  | some p =>
    by_cases hp : p = x
    · rw [hp] at h
      exact absurd (rootCore_of_self m wf x h) hne
    · rw [rootCore_of_step m wf x p h hp] at hne ⊢
      by_cases hrp : rootCore m wf p = p
      · rw [hrp]
        exact Relation.TransGen.single (And.intro hp h)
      · exact Relation.TransGen.tail (ih p (And.intro hp h) hrp) (And.intro hp h)

/-- The body of the Python find: insert a missing key as its own parent,
return a self-parented key, otherwise recurse on the parent and compress
the path by repointing the key at the representative. -/
def findBody (m : PMap α) (x : α) (ih : ∀ y, pstep m y x → α × PMap α) : α × PMap α :=
  match h : mget m x with
  | none => (x, mset m x x)
  | some p =>
    if hp : p = x then (x, m)
    else
      let rp := ih p (And.intro hp h)
      (rp.1, mset rp.2 x rp.1)

/-- The Python find: the representative of x and the dict after the
mutations find performs (missing-key insertion and path compression). -/
def findAux (m : PMap α) (wf : WellFounded (pstep m)) (x : α) : α × PMap α :=
  WellFounded.fix wf (findBody m) x

theorem findAux_unfold (m : PMap α) (wf : WellFounded (pstep m)) (x : α) :
    findAux m wf x = findBody m x (fun y _ => findAux m wf y) :=
  WellFounded.fix_eq wf (findBody m) x

theorem findAux_of_none (m : PMap α) (wf : WellFounded (pstep m)) (x : α)
    (h : mget m x = none) : findAux m wf x = (x, mset m x x) := by
  rw [findAux_unfold]
  unfold findBody
  split <;> simp_all

theorem findAux_of_self (m : PMap α) (wf : WellFounded (pstep m)) (x : α)
    (h : mget m x = some x) : findAux m wf x = (x, m) := by
  rw [findAux_unfold]
  unfold findBody
  split
  · simp_all
  · rename_i p2 h2
    have hpp : p2 = x := by rw [h] at h2; exact (Option.some_inj.mp h2).symm
    simp [hpp]

theorem findAux_of_step (m : PMap α) (wf : WellFounded (pstep m)) (x p : α)
    (h : mget m x = some p) (hp : p ≠ x) :
    findAux m wf x = ((findAux m wf p).1, mset (findAux m wf p).2 x (findAux m wf p).1) := by
  rw [findAux_unfold]
  unfold findBody
  split
  · simp_all
  · rename_i p2 h2
    have hpp : p2 = p := by rw [h] at h2; exact (Option.some_inj.mp h2).symm
    subst hpp
    simp [hp]

theorem findAux_fst (m : PMap α) (wf : WellFounded (pstep m)) (x : α) :
    (findAux m wf x).1 = rootCore m wf x := by
  refine wf.induction (C := fun x => (findAux m wf x).1 = rootCore m wf x) x ?_
  intro x ih
  cases h : mget m x with
  | none => rw [findAux_of_none m wf x h, rootCore_of_none m wf x h]
  | some p =>
    by_cases hp : p = x
    · rw [hp] at h
      rw [findAux_of_self m wf x h, rootCore_of_self m wf x h]
    · rw [findAux_of_step m wf x p h hp, rootCore_of_step m wf x p h hp]
      exact ih p (And.intro hp h)

/-- Each entry of the dict after a find is either unchanged or repointed at
the representative of its key. -/
theorem findAux_snd_mget (m : PMap α) (wf : WellFounded (pstep m)) (x : α) (z : α) :
    mget (findAux m wf x).2 z = mget m z
      ∨ mget (findAux m wf x).2 z = some (rootCore m wf z) := by
  refine wf.induction
    (C := fun x => ∀ z, mget (findAux m wf x).2 z = mget m z
      ∨ mget (findAux m wf x).2 z = some (rootCore m wf z)) x ?_ z
  intro x ih z
  cases h : mget m x with
  | none =>
    rw [findAux_of_none m wf x h]
    by_cases hz : z = x
    · rw [hz, mget_mset_self]
      right
      rw [rootCore_of_none m wf x h]
    · rw [mget_mset_ne m x x z hz]
      left
      rfl
  | some p =>
    by_cases hp : p = x
    · rw [hp] at h
      rw [findAux_of_self m wf x h]
      left
      rfl
    · rw [findAux_of_step m wf x p h hp]
      by_cases hz : z = x
      · rw [hz, mget_mset_self]
        right
        rw [findAux_fst m wf p, rootCore_of_step m wf x p h hp]
      · rw [mget_mset_ne _ _ _ _ hz]
        exact ih p (And.intro hp h) z

theorem mem_keys_findAux (m : PMap α) (wf : WellFounded (pstep m)) (x : α)
    (hc : ClosedP m) (z : α) :
    z ∈ keys (findAux m wf x).2 ↔ z = x ∨ z ∈ keys m := by
  refine wf.induction
    (C := fun x => ∀ z, z ∈ keys (findAux m wf x).2 ↔ z = x ∨ z ∈ keys m) x ?_ z
  intro x ih z
  cases h : mget m x with
  | none =>
    rw [findAux_of_none m wf x h]
    exact mem_keys_mset m x x z
  | some p =>
    have hxk : x ∈ keys m := by
      rw [mem_keys_iff_mget, h]
      rfl
    by_cases hp : p = x
    · rw [hp] at h
      rw [findAux_of_self m wf x h]
      constructor
      · exact Or.inr
      · rintro (rfl | hz)
        · exact hxk
        · exact hz
    · rw [findAux_of_step m wf x p h hp]
      rw [mem_keys_mset, ih p (And.intro hp h) z]
      have hpk : p ∈ keys m := hc x p h
      constructor
      · rintro (rfl | rfl | hz)
        · exact Or.inl rfl
        · exact Or.inr hpk
        · exact Or.inr hz
      · rintro (rfl | hz)
        · exact Or.inl rfl
        · exact Or.inr (Or.inr hz)

/-- The key just looked up is in the dict afterwards. -/
theorem self_mem_keys_findAux (m : PMap α) (wf : WellFounded (pstep m)) (x : α) :
    x ∈ keys (findAux m wf x).2 := by
  cases h : mget m x with
  | none =>
    rw [findAux_of_none m wf x h, mem_keys_mset]
    exact Or.inl rfl
  | some p =>
    have hxk : x ∈ keys m := by
      rw [mem_keys_iff_mget, h]
      rfl
    by_cases hp : p = x
    · rw [hp] at h
      rw [findAux_of_self m wf x h]
      exact hxk
    · rw [findAux_of_step m wf x p h hp, mem_keys_mset]
      exact Or.inl rfl

/-- Path compression keeps the parent pointers acyclic. -/
theorem findAux_wf (m : PMap α) (wf : WellFounded (pstep m)) (x : α) :
    WellFounded (pstep (findAux m wf x).2) := by
  refine Subrelation.wf (r := Relation.TransGen (pstep m)) ?_ wf.transGen
  intro j k hjk
  cases findAux_snd_mget m wf x k with
  | inl heq =>
    exact Relation.TransGen.single (And.intro hjk.1 (heq ▸ hjk.2))
  | inr heq =>
    have hj : j = rootCore m wf k := by
      have hh := hjk.2
      rw [heq] at hh
      exact (Option.some_inj.mp hh).symm
    rw [hj]
    exact rootCore_transGen m wf k (hj ▸ hjk.1)

/-- A root stays a root through a find. -/
theorem isRootP_findAux (m : PMap α) (wf : WellFounded (pstep m)) (x r : α)
    (hr : IsRootP m r) : IsRootP (findAux m wf x).2 r := by
  cases findAux_snd_mget m wf x r with
  | inl heq =>
    cases hr with
    | inl h => exact Or.inl (heq.trans h)
    | inr h => exact Or.inr (heq.trans h)
  | inr heq =>
    left
    rw [heq, rootCore_of_isRoot m wf r hr]

/-- Path compression does not change any representative. -/
theorem rootCore_findAux (m : PMap α) (wf : WellFounded (pstep m)) (x : α)
    (wf2 : WellFounded (pstep (findAux m wf x).2)) (z : α) :
    rootCore (findAux m wf x).2 wf2 z = rootCore m wf z := by
  refine wf.induction
    (C := fun z => rootCore (findAux m wf x).2 wf2 z = rootCore m wf z) z ?_
  intro z ih
  cases hm : findAux_snd_mget m wf x z with
  | inl heq =>
    cases h : mget m z with
    | none =>
      rw [rootCore_of_none _ wf2 z (heq.trans h), rootCore_of_none m wf z h]
    | some p =>
      by_cases hp : p = z
      · rw [hp] at h
        rw [rootCore_of_self _ wf2 z (heq.trans h), rootCore_of_self m wf z h]
      · rw [rootCore_of_step _ wf2 z p (heq.trans h) hp, rootCore_of_step m wf z p h hp]
        exact ih p (And.intro hp h)
  | inr heq =>
    by_cases hr : rootCore m wf z = z
    · rw [hr] at heq
      rw [rootCore_of_self _ wf2 z heq, hr]
    · rw [rootCore_of_step _ wf2 z (rootCore m wf z) heq (fun hh => hr hh)]
      rw [rootCore_of_isRoot _ wf2 (rootCore m wf z)
        (isRootP_findAux m wf x (rootCore m wf z) (isRootP_rootCore m wf z))]

/-- Find preserves closedness of the dict. -/
theorem closedP_findAux (m : PMap α) (wf : WellFounded (pstep m)) (x : α)
    (hc : ClosedP m) : ClosedP (findAux m wf x).2 := by
  intro z p hz
  rw [mem_keys_findAux m wf x hc]
  cases findAux_snd_mget m wf x z with
  | inl heq =>
    exact Or.inr (hc z p (heq ▸ hz))
  | inr heq =>
    have hp : p = rootCore m wf z := by
      rw [heq] at hz
      exact (Option.some_inj.mp hz).symm
    by_cases hzk : z ∈ keys m
    · right
      rw [hp]
      exact rootCore_mem_keys m wf z hc hzk
    · have hz0 : rootCore m wf z = z := rootCore_of_not_mem m wf z hzk
      rw [hp, hz0]
      have hzin : z ∈ keys (findAux m wf x).2 := by
        rw [mem_keys_iff_mget, hz]
        rfl
      exact (mem_keys_findAux m wf x hc z).mp hzin

/-- The Python union: find the root of x, then the root of y on the dict
find just mutated, and point the first root at the second when they differ. -/
def unionMap (m : PMap α) (wf : WellFounded (pstep m)) (x y : α) : PMap α :=
  if (findAux m wf x).1 = (findAux (findAux m wf x).2 (findAux_wf m wf x) y).1
  then (findAux (findAux m wf x).2 (findAux_wf m wf x) y).2
  else
    mset (findAux (findAux m wf x).2 (findAux_wf m wf x) y).2 (findAux m wf x).1
      (findAux (findAux m wf x).2 (findAux_wf m wf x) y).1

/-- Linking one root of an acyclic dict under another keeps it acyclic. -/
theorem link_wf (m2 : PMap α) (wf2 : WellFounded (pstep m2)) (px py : α)
    (hpy : IsRootP m2 py) (hne : px ≠ py) : WellFounded (pstep (mset m2 px py)) := by
  have hacc_py : Acc (pstep (mset m2 px py)) py := by
    constructor
    intro j hj
    obtain ⟨hjne, hjm⟩ := hj
    rw [mget_mset_ne m2 px py py (fun hh => hne hh.symm)] at hjm
    cases hpy with
    | inl h =>
      rw [h] at hjm
      exact absurd (Option.some_inj.mp hjm) (fun hh => hjne hh.symm)
    | inr h =>
      rw [h] at hjm
      exact absurd hjm (by simp)
  constructor
  intro a
  refine wf2.induction (C := fun a => Acc (pstep (mset m2 px py)) a) a ?_
  intro a ih
  constructor
  intro j hj
  obtain ⟨hjne, hjm⟩ := hj
  by_cases ha : a = px
  · rw [ha, mget_mset_self] at hjm
    have hjpy : j = py := (Option.some_inj.mp hjm).symm
    rw [hjpy]
    exact hacc_py
  · rw [mget_mset_ne m2 px py a ha] at hjm
    exact ih j (And.intro hjne hjm)

/-- Representatives after linking root px under root py: the class of px is
renamed to py, every other class is unchanged. -/
theorem rootCore_link (m2 : PMap α) (wf2 : WellFounded (pstep m2)) (px py : α)
    (hpx : IsRootP m2 px) (hpy : IsRootP m2 py) (hne : px ≠ py)
    (wf3 : WellFounded (pstep (mset m2 px py))) (z : α) :
    rootCore (mset m2 px py) wf3 z
      = if rootCore m2 wf2 z = px then py else rootCore m2 wf2 z := by
  refine wf3.induction
    (C := fun z => rootCore (mset m2 px py) wf3 z
      = if rootCore m2 wf2 z = px then py else rootCore m2 wf2 z) z ?_
  intro z ih
  by_cases hzx : z = px
  · subst hzx
    have h1 : mget (mset m2 z py) z = some py := mget_mset_self m2 z py
    have hroot2 : mget (mset m2 z py) py = mget m2 py :=
      mget_mset_ne m2 z py py (fun hh => hne hh.symm)
    rw [rootCore_of_step _ wf3 z py h1 (fun hh => hne hh.symm)]
    have hpy3 : IsRootP (mset m2 z py) py := by
      cases hpy with
      | inl h => exact Or.inl (hroot2.trans h)
      | inr h => exact Or.inr (hroot2.trans h)
    rw [rootCore_of_isRoot _ wf3 py hpy3]
    rw [if_pos (rootCore_of_isRoot m2 wf2 z hpx)]
  · have hmg : mget (mset m2 px py) z = mget m2 z := mget_mset_ne m2 px py z hzx
    cases h : mget m2 z with
    | none =>
      rw [rootCore_of_none _ wf3 z (hmg.trans h), rootCore_of_none m2 wf2 z h]
      rw [if_neg hzx]
    | some p =>
      by_cases hp : p = z
      · rw [hp] at h
        rw [rootCore_of_self _ wf3 z (hmg.trans h), rootCore_of_self m2 wf2 z h]
        rw [if_neg hzx]
      · rw [rootCore_of_step _ wf3 z p (hmg.trans h) hp, rootCore_of_step m2 wf2 z p h hp]
        exact ih p (And.intro hp (hmg.trans h))

theorem union_wf (m : PMap α) (wf : WellFounded (pstep m)) (x y : α) :
    WellFounded (pstep (unionMap m wf x y)) := by
  unfold unionMap
  split
  · exact findAux_wf _ _ y
  · rename_i hne
    refine link_wf _ (findAux_wf _ _ y) _ _ ?_ hne
    rw [findAux_fst]
    exact isRootP_findAux _ _ y _ (isRootP_rootCore _ _ y)

/-- Representatives after a union, stated over the original dict: the class
of x is merged into the class of y. -/
theorem rootCore_unionMap (m : PMap α) (wf : WellFounded (pstep m)) (x y : α)
    (wf3 : WellFounded (pstep (unionMap m wf x y))) (z : α) :
    rootCore (unionMap m wf x y) wf3 z
      = if rootCore m wf z = rootCore m wf x then rootCore m wf y
        else rootCore m wf z := by
  have wf1 : WellFounded (pstep (findAux m wf x).2) := findAux_wf m wf x
  have wf2 : WellFounded (pstep (findAux (findAux m wf x).2 wf1 y).2) :=
    findAux_wf _ wf1 y
  have hr1 : ∀ z, rootCore (findAux m wf x).2 wf1 z = rootCore m wf z :=
    rootCore_findAux m wf x wf1
  have hr2 : ∀ z, rootCore (findAux (findAux m wf x).2 wf1 y).2 wf2 z = rootCore m wf z :=
    fun z => (rootCore_findAux _ wf1 y wf2 z).trans (hr1 z)
  have hfx : (findAux m wf x).1 = rootCore m wf x := findAux_fst m wf x
  have hfy : (findAux (findAux m wf x).2 wf1 y).1 = rootCore m wf y := by
    rw [findAux_fst]
    exact hr1 y
  revert wf3
  unfold unionMap
  split
  · rename_i heq
    intro wf3
    rw [hr2 z]
    rw [hfx, hfy] at heq
    by_cases hzx : rootCore m wf z = rootCore m wf x
    · rw [if_pos hzx, hzx, heq]
    · rw [if_neg hzx]
  · rename_i hne
    intro wf3
    have hpx : IsRootP (findAux (findAux m wf x).2 wf1 y).2 (findAux m wf x).1 := by
      apply isRootP_findAux
      rw [hfx]
      exact isRootP_findAux m wf x _ (isRootP_rootCore m wf x)
    have hpy : IsRootP (findAux (findAux m wf x).2 wf1 y).2
        (findAux (findAux m wf x).2 wf1 y).1 := by
      rw [findAux_fst]
      exact isRootP_findAux _ wf1 y _ (isRootP_rootCore _ wf1 y)
    rw [rootCore_link _ wf2 _ _ hpx hpy hne wf3 z]
    rw [hr2 z, hfx, hfy]

/-- The key set after a union is the old key set with both arguments. -/
theorem mem_keys_unionMap (m : PMap α) (wf : WellFounded (pstep m)) (x y : α)
    (hc : ClosedP m) (z : α) :
    z ∈ keys (unionMap m wf x y) ↔ z = x ∨ z = y ∨ z ∈ keys m := by
  have wf1 : WellFounded (pstep (findAux m wf x).2) := findAux_wf m wf x
  have hc1 : ClosedP (findAux m wf x).2 := closedP_findAux m wf x hc
  have hmem2 : ∀ z, z ∈ keys (findAux (findAux m wf x).2 wf1 y).2
      ↔ z = y ∨ z = x ∨ z ∈ keys m := by
    intro z
    rw [mem_keys_findAux _ wf1 y hc1, mem_keys_findAux m wf x hc]
  unfold unionMap
  split
  · rw [hmem2 z]
    tauto
  · rw [mem_keys_mset, hmem2 z]
    have hroot : (findAux m wf x).1 = x ∨ (findAux m wf x).1 ∈ keys m := by
      rw [findAux_fst]
      by_cases hxk : x ∈ keys m
      · exact Or.inr (rootCore_mem_keys m wf x hc hxk)
      · exact Or.inl (rootCore_of_not_mem m wf x hxk)
    constructor
    · rintro (rfl | hh)
      · cases hroot with
        | inl h => exact Or.inl h
        | inr h => exact Or.inr (Or.inr h)
      · tauto
    · intro hh
      tauto

theorem closedP_unionMap (m : PMap α) (wf : WellFounded (pstep m)) (x y : α)
    (hc : ClosedP m) : ClosedP (unionMap m wf x y) := by
  have wf1 : WellFounded (pstep (findAux m wf x).2) := findAux_wf m wf x
  have hc1 : ClosedP (findAux m wf x).2 := closedP_findAux m wf x hc
  have hc2 : ClosedP (findAux (findAux m wf x).2 wf1 y).2 := closedP_findAux _ wf1 y hc1
  unfold unionMap
  split
  · exact hc2
  · intro z p hz
    rw [mem_keys_mset]
    by_cases hzx : z = (findAux m wf x).1
    · rw [hzx, mget_mset_self] at hz
      right
      have hpy : p = (findAux (findAux m wf x).2 wf1 y).1 := (Option.some_inj.mp hz).symm
      rw [hpy, findAux_fst]
      by_cases hyk : y ∈ keys (findAux m wf x).2
      · exact (mem_keys_findAux _ wf1 y hc1 _).mpr
          (Or.inr (rootCore_mem_keys _ wf1 y hc1 hyk))
      · rw [rootCore_of_not_mem _ wf1 y hyk]
        exact self_mem_keys_findAux _ wf1 y
    · rw [mget_mset_ne _ _ _ _ hzx] at hz
      exact Or.inr (hc2 z p hz)

/-- A union-find state: the parent dict with its acyclicity and closedness
invariants, which every dict built by cluster_matches satisfies. -/
structure UFS (α : Type) [DecidableEq α] : Type where
  m : PMap α
  wf : WellFounded (pstep m)
  closed : ClosedP m

theorem wf_nil : WellFounded (pstep ([] : PMap α)) := by
  constructor
  intro a
  constructor
  intro y h
  exact absurd h.2 (by simp [mget])

theorem closed_nil : ClosedP ([] : PMap α) := by
  intro x p h
  exact absurd h (by simp [mget])

/-- The empty parent dict cluster_matches starts from. -/
def ufsEmpty : UFS α := UFS.mk [] wf_nil closed_nil

/-- One union step of the loop over matches. -/
def ufsUnion (s : UFS α) (x y : α) : UFS α :=
  UFS.mk (unionMap s.m s.wf x y) (union_wf s.m s.wf x y) (closedP_unionMap s.m s.wf x y s.closed)

/-- Embeds cluster_matches of firm_linker.py and fund_linker.py: an empty
match list gives an empty dict; otherwise every matched pair is unioned in
list order and the result maps each key of the parent dict to find of it.
The final loop of finds only compresses paths and never changes a
representative (rootCore_findAux), so the output values are the
representatives in the final dict. -/
def cluster_matches (ms : List (α × α)) : PMap α :=
  if ms.isEmpty then []
  else
    let final := ms.foldl (fun s p => ufsUnion s p.1 p.2) ufsEmpty
    (keys final.m).map (fun k => (k, rootCore final.m final.wf k))

/-- Whether two ids are mapped to one canonical id by cluster_matches. -/
def sameCanonical (ms : List (α × α)) (a b : α) : Prop :=
  ∃ c, mget (cluster_matches ms) a = some c ∧ mget (cluster_matches ms) b = some c

/-- The undirected edge relation of a match list. -/
def edgeRel (l : List (α × α)) (a b : α) : Prop := (a, b) ∈ l ∨ (b, a) ∈ l

/-- A node touched by some match of the list. -/
def nodeOf (l : List (α × α)) (z : α) : Prop := ∃ p ∈ l, z = p.1 ∨ z = p.2

theorem eqvGen_empty (a b : α) :
    Relation.EqvGen (edgeRel ([] : List (α × α))) a b ↔ a = b := by
  constructor
  · intro h
    induction h with
    | rel u v h => rcases h with h | h <;> simp_all
    | refl u => rfl
    | symm u v h ih => exact ih.symm
    | trans u v w h1 h2 ih1 ih2 => exact ih1.trans ih2
  · rintro rfl
    exact Relation.EqvGen.refl a

/-- Appending one match to the list merges exactly the classes of its two
endpoints in the generated equivalence. -/
theorem eqvGen_append_single (l : List (α × α)) (x y a b : α) :
    Relation.EqvGen (edgeRel (l ++ [(x, y)])) a b ↔
      Relation.EqvGen (edgeRel l) a b
        ∨ (Relation.EqvGen (edgeRel l) a x ∧ Relation.EqvGen (edgeRel l) y b)
        ∨ (Relation.EqvGen (edgeRel l) a y ∧ Relation.EqvGen (edgeRel l) x b) := by
  have E := Relation.EqvGen.is_equivalence (edgeRel l)
  constructor
  · intro h
    induction h with
    | rel u v h =>
      rcases h with h | h
      · rcases List.mem_append.mp h with h | h
        · exact Or.inl (Relation.EqvGen.rel u v (Or.inl h))
        · rw [List.mem_singleton, Prod.mk.injEq] at h
          obtain ⟨rfl, rfl⟩ := h
          exact Or.inr (Or.inl (And.intro (E.refl u) (E.refl v)))
      · rcases List.mem_append.mp h with h | h
        · exact Or.inl (Relation.EqvGen.rel u v (Or.inr h))
        · rw [List.mem_singleton, Prod.mk.injEq] at h
          obtain ⟨rfl, rfl⟩ := h
          exact Or.inr (Or.inr (And.intro (E.refl u) (E.refl v)))
    | refl u => exact Or.inl (E.refl u)
    | symm u v h ih =>
      rcases ih with h1 | ⟨h1, h2⟩ | ⟨h1, h2⟩
      · exact Or.inl (E.symm h1)
      · exact Or.inr (Or.inr (And.intro (E.symm h2) (E.symm h1)))
      · exact Or.inr (Or.inl (And.intro (E.symm h2) (E.symm h1)))
    | trans u v w h1 h2 ih1 ih2 =>
      rcases ih1 with g1 | ⟨g1, g2⟩ | ⟨g1, g2⟩ <;>
        rcases ih2 with k1 | ⟨k1, k2⟩ | ⟨k1, k2⟩
      · exact Or.inl (E.trans g1 k1)
      · exact Or.inr (Or.inl (And.intro (E.trans g1 k1) k2))
      · exact Or.inr (Or.inr (And.intro (E.trans g1 k1) k2))
      · exact Or.inr (Or.inl (And.intro g1 (E.trans g2 k1)))
      · exact Or.inr (Or.inl (And.intro g1 k2))
      · exact Or.inl (E.trans g1 k2)
      · exact Or.inr (Or.inr (And.intro g1 (E.trans g2 k1)))
      · exact Or.inl (E.trans g1 k2)
      · exact Or.inr (Or.inr (And.intro g1 k2))
  · intro h
    have hmono : ∀ c d, Relation.EqvGen (edgeRel l) c d →
        Relation.EqvGen (edgeRel (l ++ [(x, y)])) c d := by
      intro c d hcd
      refine Relation.EqvGen.mono ?_ hcd
      intro u v huv
      rcases huv with h1 | h1
      · exact Or.inl (List.mem_append.mpr (Or.inl h1))
      · exact Or.inr (List.mem_append.mpr (Or.inl h1))
    have hxy : Relation.EqvGen (edgeRel (l ++ [(x, y)])) x y :=
      Relation.EqvGen.rel x y
        (Or.inl (List.mem_append.mpr (Or.inr (List.mem_singleton.mpr rfl))))
    have E2 := Relation.EqvGen.is_equivalence (edgeRel (l ++ [(x, y)]))
    rcases h with h1 | ⟨h1, h2⟩ | ⟨h1, h2⟩
    · exact hmono _ _ h1
    · exact E2.trans (hmono _ _ h1) (E2.trans hxy (hmono _ _ h2))
    · exact E2.trans (hmono _ _ h1) (E2.trans (E2.symm hxy) (hmono _ _ h2))

/-- The fold of unions over the match list, as run by cluster_matches. -/
def clusterFold (l : List (α × α)) : UFS α :=
  l.foldl (fun s p => ufsUnion s p.1 p.2) ufsEmpty

/-- Invariant of the union loop: the keys of the parent dict are exactly
the nodes of the processed matches, and two ids share a representative
exactly when the processed matches connect them. -/
theorem cluster_fold_spec (l : List (α × α)) :
    (∀ z, z ∈ keys (clusterFold l).m ↔ nodeOf l z)
      ∧ ∀ a b, (rootCore (clusterFold l).m (clusterFold l).wf a
          = rootCore (clusterFold l).m (clusterFold l).wf b
        ↔ Relation.EqvGen (edgeRel l) a b) := by
  induction l using List.reverseRecOn with
  | nil =>
    constructor
    · intro z
      simp [clusterFold, ufsEmpty, keys, nodeOf]
    · intro a b
      rw [eqvGen_empty]
      rw [rootCore_of_none (clusterFold []).m (clusterFold []).wf a rfl]
      rw [rootCore_of_none (clusterFold []).m (clusterFold []).wf b rfl]
  | append_singleton l p ih =>
    obtain ⟨ihk, ihr⟩ := ih
    have hfold : clusterFold (l ++ [p]) = ufsUnion (clusterFold l) p.1 p.2 := by
      unfold clusterFold
      rw [List.foldl_append]
      rfl
    have hroot3 : ∀ z, rootCore (clusterFold (l ++ [p])).m (clusterFold (l ++ [p])).wf z
        = if rootCore (clusterFold l).m (clusterFold l).wf z
              = rootCore (clusterFold l).m (clusterFold l).wf p.1
          then rootCore (clusterFold l).m (clusterFold l).wf p.2
          else rootCore (clusterFold l).m (clusterFold l).wf z := by
      intro z
      rw [hfold]
      exact rootCore_unionMap (clusterFold l).m (clusterFold l).wf p.1 p.2 _ z
    constructor
    · intro z
      rw [hfold]
      show z ∈ keys (unionMap (clusterFold l).m (clusterFold l).wf p.1 p.2) ↔ _
      rw [mem_keys_unionMap _ _ _ _ (clusterFold l).closed z]
      unfold nodeOf
      constructor
      · rintro (rfl | rfl | hz)
        · exact ⟨p, List.mem_append.mpr (Or.inr (List.mem_singleton.mpr rfl)), Or.inl rfl⟩
        · exact ⟨p, List.mem_append.mpr (Or.inr (List.mem_singleton.mpr rfl)), Or.inr rfl⟩
        · obtain ⟨q, hq, hzq⟩ := (ihk z).mp hz
          exact ⟨q, List.mem_append.mpr (Or.inl hq), hzq⟩
      · rintro ⟨q, hq, hzq⟩
        rcases List.mem_append.mp hq with hq | hq
        · exact Or.inr (Or.inr ((ihk z).mpr ⟨q, hq, hzq⟩))
        · rw [List.mem_singleton] at hq
          subst hq
          rcases hzq with rfl | rfl
          · exact Or.inl rfl
          · exact Or.inr (Or.inl rfl)
    · intro a b
      obtain ⟨x, y⟩ := p
      rw [hroot3 a, hroot3 b, eqvGen_append_single]
      rw [(ihr a b).symm, (ihr a x).symm, (ihr y b).symm, (ihr a y).symm, (ihr x b).symm]
      by_cases hax : rootCore (clusterFold l).m (clusterFold l).wf a
          = rootCore (clusterFold l).m (clusterFold l).wf x
      · by_cases hbx : rootCore (clusterFold l).m (clusterFold l).wf b
            = rootCore (clusterFold l).m (clusterFold l).wf x
        · rw [if_pos hax, if_pos hbx]
          constructor
          · intro _
            exact Or.inl (hax.trans hbx.symm)
          · intro _
            rfl
        · rw [if_pos hax, if_neg hbx]
          constructor
          · intro hy
            exact Or.inr (Or.inl (And.intro hax hy))
          · rintro (h1 | ⟨h1, h2⟩ | ⟨h1, h2⟩)
            · exact absurd (h1.symm.trans hax) hbx
            · exact h2
            · exact absurd h2.symm hbx
      · by_cases hbx : rootCore (clusterFold l).m (clusterFold l).wf b
            = rootCore (clusterFold l).m (clusterFold l).wf x
        · rw [if_neg hax, if_pos hbx]
          constructor
          · intro hy
            exact Or.inr (Or.inr (And.intro hy hbx.symm))
          · rintro (h1 | ⟨h1, h2⟩ | ⟨h1, h2⟩)
            · exact absurd (h1.trans hbx) hax
            · exact absurd h1 hax
            · exact h1
        · rw [if_neg hax, if_neg hbx]
          constructor
          · intro hab
            exact Or.inl hab
          · rintro (h1 | ⟨h1, h2⟩ | ⟨h1, h2⟩)
            · exact h1
            · exact absurd h1 hax
            · exact absurd h2.symm hbx

/-- Lookup in the output map cluster_matches builds from the final dict. -/
theorem mget_map_pairs (l : List α) (f : α → α) (a : α) :
    mget (l.map (fun k => (k, f k))) a = if a ∈ l then some (f a) else none := by
  induction l with
  | nil => simp [mget]
  | cons h t ih =>
    simp only [List.map_cons, mget, List.mem_cons]
    by_cases hh : h = a
    · rw [if_pos hh, if_pos (Or.inl hh.symm), hh]
    · rw [if_neg hh, ih]
      by_cases ha : a ∈ t
      · rw [if_pos ha, if_pos (Or.inr ha)]
      · rw [if_neg ha, if_neg ?_]
        rintro (rfl | hc)
        · exact hh rfl
        · exact ha hc

/-- The nonempty case of cluster_matches, phrased over the union fold. -/
theorem cluster_matches_eq (l : List (α × α)) (h : ¬ l.isEmpty = true) :
    cluster_matches l = (keys (clusterFold l).m).map
      (fun k => (k, rootCore (clusterFold l).m (clusterFold l).wf k)) := by
  unfold cluster_matches clusterFold
  rw [if_neg h]

/-- Characterization of cluster_matches: two ids land in one canonical
group exactly when both appear in some match and the matches connect them
transitively. -/
theorem sameCanonical_iff (l : List (α × α)) (a b : α) :
    sameCanonical l a b ↔ nodeOf l a ∧ nodeOf l b ∧ Relation.EqvGen (edgeRel l) a b := by
  obtain ⟨hkeys, hroot⟩ := cluster_fold_spec l
  unfold sameCanonical
  by_cases hl : l.isEmpty
  · rw [List.isEmpty_iff] at hl
    subst hl
    simp [cluster_matches, mget, nodeOf]
  · rw [cluster_matches_eq l hl]
    simp only [mget_map_pairs]
    by_cases hak : a ∈ keys (clusterFold l).m
    · by_cases hbk : b ∈ keys (clusterFold l).m
      · simp only [if_pos hak, if_pos hbk]
        constructor
        · rintro ⟨c, hc1, hc2⟩
          refine And.intro ((hkeys a).mp hak) (And.intro ((hkeys b).mp hbk) ?_)
          rw [(hroot a b).symm]
          rw [Option.some_inj.mp hc1, Option.some_inj.mp hc2]
        · rintro ⟨ha, hb, hab⟩
          refine Exists.intro (rootCore (clusterFold l).m (clusterFold l).wf a) ?_
          refine And.intro rfl ?_
          rw [(hroot a b).mpr hab]
      · simp only [if_pos hak, if_neg hbk]
        constructor
        · rintro ⟨c, hc1, hc2⟩
          exact absurd hc2 (by simp)
        · rintro ⟨ha, hb, hab⟩
          exact absurd ((hkeys b).mpr hb) hbk
    · simp only [if_neg hak]
      constructor
      · rintro ⟨c, hc1, hc2⟩
        exact absurd hc1 (by simp)
      · rintro ⟨ha, hb, hab⟩
        exact absurd ((hkeys a).mpr ha) hak

end UF

/-! ## generate_co_investment_edges (co_investment.py lines 29-148)

The edge rebuild truncates the edge table and repopulates it from one
INSERT ... SELECT: a self-join of resolved deal-investor rows on the same
deal with the lower firm id on the left, restricted to deals within the
investor-count threshold, grouped by the canonical LEAST/GREATEST pair and
aggregated.  A table keyed by a unique pair is its lookup function, so the
rebuilt edge table is embedded as the function from an ordered pair to its
aggregate row (none when the pair has no underlying join rows), together
with the skipped-deal statistics the function reports. -/

structure Deal where
  id : Nat
  deal_type : Option String
  deal_date : Option Nat
  deal_value_usd : Option ℚ
deriving DecidableEq

/-- deal_investor_counts CTE: COUNT of resolved investor rows per deal. -/
def resolvedCount (rows : List DealInvestorFirmRow) (d : Nat) : Nat :=
  (rows.filter (fun r => r.deal_id == d && r.investor_firm_id.isSome)).length

/-- The high-degree query: deals whose resolved investor count exceeds the
threshold, reported before the rebuild and excluded from it. -/
def skippedDeals (rows : List DealInvestorFirmRow) (deals : List Deal) (maxInv : Nat) :
    List Deal :=
  deals.filter (fun d => decide (maxInv < resolvedCount rows d.id))

/-- valid_deals CTE: deals with at least one resolved investor row, within
the threshold. -/
def isValidDeal (rows : List DealInvestorFirmRow) (maxInv : Nat) (d : Nat) : Bool :=
  decide (0 < resolvedCount rows d) && decide (resolvedCount rows d ≤ maxInv)

/-- One row of the pairing join, before grouping. -/
structure PairRow where
  firm_a_id : Nat
  firm_b_id : Nat
  deal : Deal
deriving DecidableEq

/-- The join condition of the edge INSERT for one candidate row triple. -/
def pairOf (valid : Nat → Bool) (a b : DealInvestorFirmRow) (d : Deal) : Option PairRow :=
  match a.investor_firm_id, b.investor_firm_id with
  | some fa, some fb =>
    if a.deal_id == b.deal_id && decide (fa < fb) && d.id == a.deal_id && valid a.deal_id
    then some (PairRow.mk fa fb d)
    else none
  | _, _ => none

/-- The self-join of the edge INSERT with the validity predicate abstracted. -/
def pairRowsV (valid : Nat → Bool) (rows : List DealInvestorFirmRow) (deals : List Deal) :
    List PairRow :=
  rows.flatMap (fun a => rows.flatMap (fun b => deals.filterMap (fun d => pairOf valid a b d)))

/-- The join rows feeding the grouped INSERT. -/
def pairRows (rows : List DealInvestorFirmRow) (deals : List Deal) (maxInv : Nat) :
    List PairRow :=
  pairRowsV (isValidDeal rows maxInv) rows deals

structure EdgeAgg where
  deal_count : Nat
  total_value_usd : Option ℚ
  first_deal_date : Option Nat
  last_deal_date : Option Nat
deriving DecidableEq

/-- SQL SUM over a nullable column: nulls ignored, NULL on an empty group. -/
def sqlSum (vs : List (Option ℚ)) : Option ℚ :=
  if (vs.filterMap id).isEmpty then none else some (vs.filterMap id).sum

def minStep (v : Option Nat) (acc : Option Nat) : Option Nat :=
  match v, acc with
  | none, a => a
  | some x, none => some x
  | some x, some y => some (min x y)

def maxStep (v : Option Nat) (acc : Option Nat) : Option Nat :=
  match v, acc with
  | none, a => a
  | some x, none => some x
  | some x, some y => some (max x y)

/-- SQL MIN over a nullable column. -/
def sqlMin (vs : List (Option Nat)) : Option Nat := vs.foldr minStep none

/-- SQL MAX over a nullable column. -/
def sqlMax (vs : List (Option Nat)) : Option Nat := vs.foldr maxStep none

/-- GROUP BY (LEAST, GREATEST) key of a join row. -/
def edgeKeyOf (fa fb : Nat) : Nat × Nat := (min fa fb, max fa fb)

/-- The rows of one GROUP BY group, keyed by the canonical pair. -/
def edgeGroup (rows : List DealInvestorFirmRow) (deals : List Deal) (maxInv : Nat)
    (p : Nat × Nat) : List PairRow :=
  (pairRows rows deals maxInv).filter (fun r => edgeKeyOf r.firm_a_id r.firm_b_id == p)

/-- The aggregate row the grouped INSERT produces for one key, or none when
no join row carries the key: COUNT(DISTINCT deal), SUM of value, MIN and
MAX of date. -/
def edgeFor (rows : List DealInvestorFirmRow) (deals : List Deal) (maxInv : Nat)
    (p : Nat × Nat) : Option EdgeAgg :=
  if (edgeGroup rows deals maxInv p).isEmpty then none
  else
    some
      (EdgeAgg.mk (((edgeGroup rows deals maxInv p).map (fun r => r.deal.id)).dedup).length
        (sqlSum ((edgeGroup rows deals maxInv p).map (fun r => r.deal.deal_value_usd)))
        (sqlMin ((edgeGroup rows deals maxInv p).map (fun r => r.deal.deal_date)))
        (sqlMax ((edgeGroup rows deals maxInv p).map (fun r => r.deal.deal_date))))

structure CoInvestResult where
  edge_of : Nat × Nat → Option EdgeAgg
  high_degree_deals_skipped : Nat
  max_investors_threshold : Nat

/-- Embeds generate_co_investment_edges of co_investment.py: the rebuilt
edge table as its lookup function, the count of high-degree deals skipped,
and the threshold echoed in the result. -/
def generate_co_investment_edges (rows : List DealInvestorFirmRow) (deals : List Deal)
    (maxInv : Nat) : CoInvestResult :=
  CoInvestResult.mk (fun p => edgeFor rows deals maxInv p)
    (skippedDeals rows deals maxInv).length maxInv

theorem pairOf_eq_some (valid : Nat → Bool) (a b : DealInvestorFirmRow) (d : Deal)
    (r : PairRow) :
    pairOf valid a b d = some r ↔
      a.investor_firm_id = some r.firm_a_id ∧ b.investor_firm_id = some r.firm_b_id
        ∧ a.deal_id = b.deal_id ∧ r.firm_a_id < r.firm_b_id ∧ d.id = a.deal_id
        ∧ valid a.deal_id = true ∧ r.deal = d := by
  unfold pairOf
  cases ha : a.investor_firm_id with
  | none => simp
  | some fa =>
    cases hb : b.investor_firm_id with
    | none => simp
    | some fb =>
      dsimp only
      by_cases hcond : a.deal_id == b.deal_id && decide (fa < fb)
          && d.id == a.deal_id && valid a.deal_id
      · rw [if_pos hcond]
        simp only [Bool.and_eq_true, beq_iff_eq, decide_eq_true_eq] at hcond
        obtain ⟨⟨⟨h1, h2⟩, h3⟩, h4⟩ := hcond
        constructor
        · intro hr
          rw [(Option.some_inj.mp hr).symm]
          exact ⟨rfl, rfl, h1, h2, h3, h4, rfl⟩
        · rintro ⟨g1, g2, g3, g4, g5, g6, g7⟩
          cases r with
          | mk ra rb rd =>
            simp only at g1 g2 g7
            rw [Option.some_inj.mp g1, Option.some_inj.mp g2, g7]
      · rw [if_neg hcond]
        simp only [Bool.and_eq_true, beq_iff_eq, decide_eq_true_eq] at hcond
        constructor
        · intro hr
          simp at hr
        · rintro ⟨g1, g2, g3, g4, g5, g6, g7⟩
          rw [(Option.some_inj.mp g1).symm, (Option.some_inj.mp g2).symm] at g4
          exact absurd ⟨⟨⟨g3, g4⟩, g5⟩, g6⟩ hcond

theorem mem_pairRowsV (valid : Nat → Bool) (rows : List DealInvestorFirmRow)
    (deals : List Deal) (r : PairRow) :
    r ∈ pairRowsV valid rows deals ↔
      ∃ a ∈ rows, ∃ b ∈ rows, ∃ d ∈ deals, pairOf valid a b d = some r := by
  unfold pairRowsV
  simp only [List.mem_flatMap, List.mem_filterMap]

/-- Every join row has its firm pair in strictly increasing order. -/
theorem pairRows_ordered (rows : List DealInvestorFirmRow) (deals : List Deal)
    (maxInv : Nat) (r : PairRow) (hr : r ∈ pairRows rows deals maxInv) :
    r.firm_a_id < r.firm_b_id := by
  obtain ⟨a, ha, b, hb, d, hd, hp⟩ := (mem_pairRowsV _ rows deals r).mp hr
  exact ((pairOf_eq_some _ a b d r).mp hp).2.2.2.1

theorem isEmpty_eq_of_perm {β : Type} {l1 l2 : List β} (h : l1.Perm l2) :
    l1.isEmpty = l2.isEmpty := by
  have hl := h.length_eq
  cases l1 <;> cases l2 <;> simp_all

theorem sqlMin_perm {l1 l2 : List (Option Nat)} (h : l1.Perm l2) : sqlMin l1 = sqlMin l2 := by
  unfold sqlMin
  induction h with
  | nil => rfl
  | cons x h ih => simp only [List.foldr_cons, ih]
  | swap x y l =>
    simp only [List.foldr_cons]
    cases x <;> cases y <;> cases List.foldr minStep none l <;>
      simp [minStep, Nat.min_comm, Nat.min_left_comm]
  | trans h1 h2 ih1 ih2 => rw [ih1, ih2]

theorem sqlMax_perm {l1 l2 : List (Option Nat)} (h : l1.Perm l2) : sqlMax l1 = sqlMax l2 := by
  unfold sqlMax
  induction h with
  | nil => rfl
  | cons x h ih => simp only [List.foldr_cons, ih]
  | swap x y l =>
    simp only [List.foldr_cons]
    cases x <;> cases y <;> cases List.foldr maxStep none l <;>
      simp [maxStep, Nat.max_comm, Nat.max_left_comm]
  | trans h1 h2 ih1 ih2 => rw [ih1, ih2]

theorem sqlSum_perm {l1 l2 : List (Option ℚ)} (h : l1.Perm l2) : sqlSum l1 = sqlSum l2 := by
  unfold sqlSum
  have hp : (l1.filterMap id).Perm (l2.filterMap id) := List.Perm.filterMap id h
  rw [isEmpty_eq_of_perm hp, hp.sum_eq]

theorem resolvedCount_perm {rows1 rows2 : List DealInvestorFirmRow} (h : rows1.Perm rows2)
    (d : Nat) : resolvedCount rows1 d = resolvedCount rows2 d := by
  unfold resolvedCount
  rw [(List.Perm.filter _ h).length_eq]

theorem isValidDeal_perm {rows1 rows2 : List DealInvestorFirmRow} (h : rows1.Perm rows2)
    (maxInv d : Nat) : isValidDeal rows1 maxInv d = isValidDeal rows2 maxInv d := by
  unfold isValidDeal
  rw [resolvedCount_perm h d]

theorem pairRows_perm {rows1 rows2 : List DealInvestorFirmRow} {deals1 deals2 : List Deal}
    (hr : rows1.Perm rows2) (hd : deals1.Perm deals2) (maxInv : Nat) :
    (pairRows rows1 deals1 maxInv).Perm (pairRows rows2 deals2 maxInv) := by
  unfold pairRows
  have hv : isValidDeal rows1 maxInv = isValidDeal rows2 maxInv := by
    funext d
    exact isValidDeal_perm hr maxInv d
  rw [hv]
  unfold pairRowsV
  refine List.Perm.trans (List.Perm.flatMap_right _ hr) ?_
  refine List.Perm.flatMap_left _ ?_
  intro a _
  refine List.Perm.trans (List.Perm.flatMap_right _ hr) ?_
  refine List.Perm.flatMap_left _ ?_
  intro b _
  exact List.Perm.filterMap _ hd

/-- The rebuilt edge table is determined by the relationship rows and deal
rows as multisets: reordering the inputs leaves every edge unchanged. -/
theorem edgeFor_perm {rows1 rows2 : List DealInvestorFirmRow} {deals1 deals2 : List Deal}
    (hr : rows1.Perm rows2) (hd : deals1.Perm deals2) (maxInv : Nat) (p : Nat × Nat) :
    edgeFor rows1 deals1 maxInv p = edgeFor rows2 deals2 maxInv p := by
  have hgp : (edgeGroup rows1 deals1 maxInv p).Perm (edgeGroup rows2 deals2 maxInv p) :=
    List.Perm.filter _ (pairRows_perm hr hd maxInv)
  unfold edgeFor
  rw [isEmpty_eq_of_perm hgp]
  by_cases h2 : (edgeGroup rows2 deals2 maxInv p).isEmpty
  · rw [if_pos h2, if_pos h2]
  · rw [if_neg h2, if_neg h2]
    have e1 : (((edgeGroup rows1 deals1 maxInv p).map (fun r => r.deal.id)).dedup).length
        = (((edgeGroup rows2 deals2 maxInv p).map (fun r => r.deal.id)).dedup).length :=
      ((hgp.map _).dedup).length_eq
    have e2 : sqlSum ((edgeGroup rows1 deals1 maxInv p).map (fun r => r.deal.deal_value_usd))
        = sqlSum ((edgeGroup rows2 deals2 maxInv p).map (fun r => r.deal.deal_value_usd)) :=
      sqlSum_perm (hgp.map _)
    have e3 : sqlMin ((edgeGroup rows1 deals1 maxInv p).map (fun r => r.deal.deal_date))
        = sqlMin ((edgeGroup rows2 deals2 maxInv p).map (fun r => r.deal.deal_date)) :=
      sqlMin_perm (hgp.map _)
    have e4 : sqlMax ((edgeGroup rows1 deals1 maxInv p).map (fun r => r.deal.deal_date))
        = sqlMax ((edgeGroup rows2 deals2 maxInv p).map (fun r => r.deal.deal_date)) :=
      sqlMax_perm (hgp.map _)
    rw [e1, e2, e3, e4]

/-- Rows of a deal over the threshold never reach the pairing join. -/
theorem pairRows_excludes_high_degree (rows : List DealInvestorFirmRow) (deals : List Deal)
    (maxInv : Nat) (did : Nat) (hcount : maxInv < resolvedCount rows did)
    (r : PairRow) (hr : r ∈ pairRows rows deals maxInv) : r.deal.id ≠ did := by
  obtain ⟨a, _, b, _, d, _, hp⟩ := (mem_pairRowsV _ rows deals r).mp hr
  obtain ⟨_, _, _, _, hdid, hvalid, hrd⟩ := (pairOf_eq_some _ a b d r).mp hp
  intro hEq
  have hda : r.deal.id = a.deal_id := by rw [hrd, hdid]
  rw [hda.symm, hEq] at hvalid
  unfold isValidDeal at hvalid
  simp only [Bool.and_eq_true, decide_eq_true_eq] at hvalid
  omega

/-! ## get_network_hops (co_investment.py lines 223-333)

The recursive CTE is embedded as a level-by-level expansion of the working
table: the base level holds the direct co-investors at hop 1, and each
recursive step follows edges from a row's firm, excluding firms on the
row's path and the origin, while the row's hop is below the cap.  The final
SELECT groups rows by firm with MIN(hop) as the distance, orders by
distance then connection count, limits, and the Python code then buckets
the rows by distance with a per-hop cap.  max_hops is clamped to 3 before
any of this, as in the source. -/

structure CoEdge where
  firm_a_id : Nat
  firm_b_id : Nat
  deal_count : Nat
  total_value_usd : Option ℚ
deriving DecidableEq

structure FirmRec where
  id : Nat
  name : String
  firm_type : Option String
  headquarters_country : Option String
  aum_usd : Option ℚ
deriving DecidableEq

structure NetRow where
  firm_id : Nat
  hop : Nat
  path : List Nat
  deal_count : Nat
  total_value_usd : Option ℚ
deriving DecidableEq

/-- CASE WHEN e.firm_a_id = f THEN e.firm_b_id ELSE e.firm_a_id END. -/
def otherEnd (e : CoEdge) (f : Nat) : Nat :=
  if e.firm_a_id == f then e.firm_b_id else e.firm_a_id

def touches (e : CoEdge) (f : Nat) : Bool := e.firm_a_id == f || e.firm_b_id == f

/-- Base branch of the CTE: direct co-investors at hop 1. -/
def netBase (edges : List CoEdge) (origin : Nat) (min_deals : Nat) : List NetRow :=
  edges.filterMap (fun e =>
    if touches e origin && decide (min_deals ≤ e.deal_count) then
      some (NetRow.mk (otherEnd e origin) 1 [origin] e.deal_count e.total_value_usd)
    else none)

/-- Recursive branch of the CTE applied to one working row. -/
def netStep (edges : List CoEdge) (origin : Nat) (max_hops min_deals : Nat)
    (n : NetRow) : List NetRow :=
  if decide (n.hop < max_hops) then
    edges.filterMap (fun e =>
      if touches e n.firm_id && decide (min_deals ≤ e.deal_count)
          && !(n.path.contains (otherEnd e n.firm_id))
          && !(otherEnd e n.firm_id == origin) then
        some (NetRow.mk (otherEnd e n.firm_id) (n.hop + 1) (n.path ++ [n.firm_id])
          e.deal_count e.total_value_usd)
      else none)
  else []

/-- The level iteration of the recursive query. -/
def netLevels : Nat → List CoEdge → Nat → Nat → Nat → List NetRow → List NetRow
  | 0, _, _, _, _, frontier => frontier
  | fuel + 1, edges, origin, max_hops, min_deals, frontier =>
      frontier ++ netLevels fuel edges origin max_hops min_deals
        (frontier.flatMap (netStep edges origin max_hops min_deals))

/-- All rows of the recursive CTE.  The hop bound empties the working table
after max_hops levels, so max_hops iterations produce every row. -/
def networkRows (edges : List CoEdge) (origin max_hops min_deals : Nat) : List NetRow :=
  netLevels max_hops edges origin max_hops min_deals (netBase edges origin min_deals)

/-- MIN over a nonempty group of hops. -/
def natMinList : List Nat → Nat
  | [] => 0
  | x :: xs => xs.foldl min x

structure HopEntry where
  firm_id : Nat
  firm_name : String
  distance : Nat
  total_connections : Nat
  total_connection_value : Option ℚ
deriving DecidableEq

def hopsOf (net : List NetRow) (f : Nat) : List Nat :=
  (net.filter (fun n => n.firm_id == f)).map (fun n => n.hop)

/-- GROUP BY firm of the final SELECT, with the firms join. -/
def entryFor (firms : List FirmRec) (net : List NetRow) (f : Nat) : Option HopEntry :=
  match firms.find? (fun fr => fr.id == f) with
  | none => none
  | some fr =>
    some
      (HopEntry.mk f fr.name (natMinList (hopsOf net f))
        (((net.filter (fun n => n.firm_id == f)).map (fun n => n.deal_count)).sum)
        (sqlSum ((net.filter (fun n => n.firm_id == f)).map (fun n => n.total_value_usd))))

def hopEntries (firms : List FirmRec) (net : List NetRow) : List HopEntry :=
  ((net.map (fun n => n.firm_id)).dedup).filterMap (entryFor firms net)

/-- ORDER BY distance, total_connections DESC. -/
def hopLe (a b : HopEntry) : Bool :=
  decide (a.distance < b.distance)
    || (a.distance == b.distance && decide (b.total_connections ≤ a.total_connections))

/-- The safety clamp at the top of get_network_hops. -/
def cappedHops (max_hops : Nat) : Nat := if max_hops > 3 then 3 else max_hops

/-- The ordered, limited row list the SQL returns to the Python code. -/
def limitedEntries (edges : List CoEdge) (firms : List FirmRec) (firm_id : Nat)
    (max_hops min_deals limit_per_hop : Nat) : List HopEntry :=
  ((hopEntries firms (networkRows edges firm_id (cappedHops max_hops) min_deals)).mergeSort
    hopLe).take (limit_per_hop * cappedHops max_hops)

structure NetworkResult where
  max_hops : Nat
  buckets : List (Nat × List HopEntry)
deriving DecidableEq

/-- Embeds get_network_hops of co_investment.py: the network dict keyed
hop_1 .. hop_capped, each bucket filled from the ordered rows whose
distance matches the bucket, capped per hop. -/
def get_network_hops (edges : List CoEdge) (firms : List FirmRec) (firm_id : Nat)
    (max_hops min_deals limit_per_hop : Nat) : NetworkResult :=
  NetworkResult.mk (cappedHops max_hops)
    (((List.range (cappedHops max_hops)).map (fun i => i + 1)).map
      (fun k =>
        (k, ((limitedEntries edges firms firm_id max_hops min_deals limit_per_hop).filter
          (fun en => en.distance == k)).take limit_per_hop)))

/-- The row invariant of the recursive CTE. -/
def RowOK (origin cap : Nat) (n : NetRow) : Prop :=
  n.firm_id ≠ origin ∧ 1 ≤ n.hop ∧ n.hop ≤ max cap 1 ∧ n.firm_id ∉ n.path

theorem otherEnd_ne (e : CoEdge) (f : Nat) (hw : e.firm_a_id < e.firm_b_id)
    (ht : touches e f = true) : otherEnd e f ≠ f := by
  unfold touches at ht
  unfold otherEnd
  simp only [Bool.or_eq_true, beq_iff_eq] at ht
  by_cases ha : e.firm_a_id == f
  · rw [if_pos ha]
    rw [beq_iff_eq] at ha
    omega
  · rw [if_neg ha]
    rw [beq_iff_eq] at ha
    rcases ht with h | h
    · exact absurd h ha
    · omega

theorem netBase_ok (edges : List CoEdge) (origin min_deals : Nat) (cap : Nat)
    (hw : ∀ e ∈ edges, e.firm_a_id < e.firm_b_id) (n : NetRow)
    (hn : n ∈ netBase edges origin min_deals) : RowOK origin cap n := by
  unfold netBase at hn
  rw [List.mem_filterMap] at hn
  obtain ⟨e, he, hcond⟩ := hn
  by_cases hc : touches e origin && decide (min_deals ≤ e.deal_count)
  · rw [if_pos hc] at hcond
    rw [(Option.some_inj.mp hcond).symm]
    simp only [Bool.and_eq_true] at hc
    have hne : otherEnd e origin ≠ origin := otherEnd_ne e origin (hw e he) hc.1
    refine And.intro hne (And.intro Nat.le.refl (And.intro (Nat.le_max_right cap 1) ?_))
    simp only [List.mem_singleton]
    exact hne
  · rw [if_neg hc] at hcond
    simp at hcond

theorem netStep_ok (edges : List CoEdge) (origin cap min_deals : Nat)
    (hw : ∀ e ∈ edges, e.firm_a_id < e.firm_b_id) (n : NetRow) (hn : RowOK origin cap n)
    (r : NetRow) (hr : r ∈ netStep edges origin cap min_deals n) : RowOK origin cap r := by
  unfold netStep at hr
  by_cases hhop : decide (n.hop < cap)
  · rw [if_pos hhop] at hr
    rw [List.mem_filterMap] at hr
    obtain ⟨e, he, hcond⟩ := hr
    by_cases hc : touches e n.firm_id && decide (min_deals ≤ e.deal_count)
        && !(n.path.contains (otherEnd e n.firm_id)) && !(otherEnd e n.firm_id == origin)
    · rw [if_pos hc] at hcond
      rw [(Option.some_inj.mp hcond).symm]
      simp only [Bool.and_eq_true] at hc
      obtain ⟨⟨⟨t1, t2⟩, t3⟩, t4⟩ := hc
      have hne : otherEnd e n.firm_id ≠ n.firm_id := otherEnd_ne e n.firm_id (hw e he) t1
      have hno : otherEnd e n.firm_id ≠ origin := by simpa using t4
      have hnp : otherEnd e n.firm_id ∉ n.path := by simpa using t3
      refine And.intro hno (And.intro (Nat.le_add_left 1 n.hop) (And.intro ?_ ?_))
      · show n.hop + 1 ≤ max cap 1
        have := Nat.le_max_left cap 1
        rw [decide_eq_true_eq] at hhop
        omega
      · show otherEnd e n.firm_id ∉ n.path ++ [n.firm_id]
        rw [List.mem_append, List.mem_singleton]
        rintro (h | h)
        · exact hnp h
        · exact hne h
    · rw [if_neg hc] at hcond
      simp at hcond
  · rw [if_neg hhop] at hr
    simp at hr

theorem netLevels_ok (fuel : Nat) (edges : List CoEdge) (origin cap min_deals : Nat)
    (hw : ∀ e ∈ edges, e.firm_a_id < e.firm_b_id) (frontier : List NetRow)
    (hf : ∀ n ∈ frontier, RowOK origin cap n) :
    ∀ r ∈ netLevels fuel edges origin cap min_deals frontier, RowOK origin cap r := by
  induction fuel generalizing frontier with
  | zero => exact hf
  | succ fuel ih =>
    intro r hr
    unfold netLevels at hr
    rw [List.mem_append] at hr
    cases hr with
    | inl h => exact hf r h
    | inr h =>
      refine ih _ ?_ r h
      intro n hn
      rw [List.mem_flatMap] at hn
      obtain ⟨m, hm, hmn⟩ := hn
      exact netStep_ok edges origin cap min_deals hw m (hf m hm) n hmn

/-- Every row of the recursive CTE respects the traversal invariants. -/
theorem networkRows_ok (edges : List CoEdge) (origin cap min_deals : Nat)
    (hw : ∀ e ∈ edges, e.firm_a_id < e.firm_b_id) :
    ∀ r ∈ networkRows edges origin cap min_deals, RowOK origin cap r :=
  netLevels_ok cap edges origin cap min_deals hw _
    (fun n hn => netBase_ok edges origin min_deals cap hw n hn)

theorem foldl_min_le_init (xs : List Nat) (x : Nat) : xs.foldl min x ≤ x := by
  induction xs generalizing x with
  | nil => exact Nat.le.refl
  | cons y ys ih => exact Nat.le_trans (ih (min x y)) (Nat.min_le_left x y)

theorem foldl_min_le (xs : List Nat) (x y : Nat) (hy : y = x ∨ y ∈ xs) :
    xs.foldl min x ≤ y := by
  induction xs generalizing x with
  | nil =>
    rcases hy with rfl | h
    · exact Nat.le.refl
    · simp at h
  | cons z zs ih =>
    show zs.foldl min (min x z) ≤ y
    rcases hy with rfl | h
    · exact Nat.le_trans (foldl_min_le_init zs (min y z)) (Nat.min_le_left y z)
    · rw [List.mem_cons] at h
      rcases h with rfl | h
      · exact Nat.le_trans (foldl_min_le_init zs (min x y)) (Nat.min_le_right x y)
      · exact ih (min x z) (Or.inr h)

theorem natMinList_le (l : List Nat) (y : Nat) (hy : y ∈ l) : natMinList l ≤ y := by
  cases l with
  | nil => simp at hy
  | cons x xs =>
    rw [List.mem_cons] at hy
    exact foldl_min_le xs x y hy

theorem foldl_min_mem (xs : List Nat) (x : Nat) :
    xs.foldl min x = x ∨ xs.foldl min x ∈ xs := by
  induction xs generalizing x with
  | nil => exact Or.inl rfl
  | cons z zs ih =>
    show zs.foldl min (min x z) = x ∨ zs.foldl min (min x z) ∈ z :: zs
    rcases ih (min x z) with h | h
    · rcases min_choice x z with h2 | h2
      · exact Or.inl (h.trans h2)
      · refine Or.inr ?_
        rw [List.mem_cons]
        exact Or.inl (h.trans h2)
    · refine Or.inr ?_
      rw [List.mem_cons]
      exact Or.inr h

theorem natMinList_mem (l : List Nat) (hl : l ≠ []) : natMinList l ∈ l := by
  cases l with
  | nil => exact absurd rfl hl
  | cons x xs =>
    show xs.foldl min x ∈ x :: xs
    rcases foldl_min_mem xs x with h | h
    · rw [h]
      exact List.mem_cons_self x xs
    · rw [List.mem_cons]
      exact Or.inr h

/-- An entry of the grouped result names a firm some CTE row reached, and
its distance is the minimum hop over that firm's rows. -/
theorem mem_hopEntries (firms : List FirmRec) (net : List NetRow) (en : HopEntry)
    (h : en ∈ hopEntries firms net) :
    (∃ n ∈ net, n.firm_id = en.firm_id)
      ∧ en.distance = natMinList (hopsOf net en.firm_id) := by
  unfold hopEntries at h
  rw [List.mem_filterMap] at h
  obtain ⟨f, hf, he⟩ := h
  unfold entryFor at he
  cases hfr : firms.find? (fun fr => fr.id == f) with
  | none =>
    rw [hfr] at he
    simp at he
  | some fr =>
    rw [hfr] at he
    have hen : en = HopEntry.mk f fr.name (natMinList (hopsOf net f))
        (((net.filter (fun n => n.firm_id == f)).map (fun n => n.deal_count)).sum)
        (sqlSum ((net.filter (fun n => n.firm_id == f)).map (fun n => n.total_value_usd))) :=
      (Option.some_inj.mp he).symm
    have hfid : en.firm_id = f := by rw [hen]
    have hdist : en.distance = natMinList (hopsOf net f) := by rw [hen]
    constructor
    · rw [List.mem_dedup, List.mem_map] at hf
      obtain ⟨n, hn, hnf⟩ := hf
      refine ⟨n, hn, ?_⟩
      rw [hfid]
      exact hnf
    · rw [hfid]
      exact hdist

/-- A hop of a firm recorded in the CTE appears in the firm's hop group. -/
theorem hop_mem_hopsOf (net : List NetRow) (n : NetRow) (hn : n ∈ net) (f : Nat)
    (hf : n.firm_id = f) : n.hop ∈ hopsOf net f := by
  unfold hopsOf
  rw [List.mem_map]
  refine ⟨n, ?_, rfl⟩
  rw [List.mem_filter]
  exact ⟨hn, by rw [hf]; exact beq_self_eq_true f⟩

theorem mem_limitedEntries (edges : List CoEdge) (firms : List FirmRec) (firm_id : Nat)
    (max_hops min_deals limit_per_hop : Nat) (en : HopEntry)
    (h : en ∈ limitedEntries edges firms firm_id max_hops min_deals limit_per_hop) :
    en ∈ hopEntries firms (networkRows edges firm_id (cappedHops max_hops) min_deals) := by
  unfold limitedEntries at h
  have h1 := List.take_subset _ _ h
  exact (List.mem_mergeSort).mp h1

/-! ## hybrid_search (hybrid_search.py lines 51-87 and 120-277)

The module-global pgvector availability cache is threaded explicitly: a
call receives the cached Option Bool and returns the new cache together
with how many times it probed the database.  The probe outcome, the
embedding service and the PostgreSQL text-search primitives are fields of
an environment record; the probe field is the net result of the try block
(False covers both a missing extension and a raised exception), and embed
returns none when openai is unavailable, the key is unset, or the request
fails — exactly the cases in which get_embedding returns None. -/

structure EntityDoc where
  entity_type : String
  entity_id : Nat
  title : String
  doc_text : String
  meta_aum_usd : Option ℚ
  meta_country : Option String
  meta_strategy : Option String
  meta_firm_type : Option String
  has_embedding : Bool
deriving DecidableEq

structure SearchEnv where
  probe : Bool
  embed : String → Option (List ℚ)
  docs : List EntityDoc
  tsRank : String → EntityDoc → ℚ
  tsMatch : String → EntityDoc → Bool
  semSim : List ℚ → EntityDoc → ℚ

/-- Embeds check_pgvector_available: the cached value is returned without a
probe; otherwise the database is probed once and the outcome cached. -/
def check_pgvector_available (env : SearchEnv) (cache : Option Bool) :
    Bool × Option Bool × Nat :=
  match cache with
  | some b => (b, some b, 0)
  | none => (env.probe, some env.probe, 1)

structure SearchFilters where
  min_aum : Option ℚ
  country : Option String
  strategy : Option String
  firm_type : Option String

/-- ILIKE with wildcards on both sides: case-insensitive containment. -/
def iLikeContains (hay : Option String) (needle : String) : Bool :=
  match hay with
  | none => false
  | some h => lcHas ((pyLower needle).data) h.data

/-- The WHERE conditions built from the filters argument; a null metadata
field never satisfies a comparison, as in SQL. -/
def filterPass (filters : Option SearchFilters) (doc : EntityDoc) : Bool :=
  match filters with
  | none => true
  | some f =>
    (match f.min_aum with
      | none => true
      | some v =>
        match doc.meta_aum_usd with
        | none => false
        | some a => decide (v ≤ a)) &&
    (match f.country with
      | none => true
      | some c => iLikeContains doc.meta_country c) &&
    (match f.strategy with
      | none => true
      | some s => iLikeContains doc.meta_strategy s) &&
    (match f.firm_type with
      | none => true
      | some t => doc.meta_firm_type == some t)

structure SearchItem where
  entity_type : String
  entity_id : Nat
  title : String
  text_score : ℚ
  semantic_score : ℚ
  score : ℚ
deriving DecidableEq

structure SearchOutput where
  query : String
  results : List SearchItem
  total : Nat
  search_type : String
  entity_types : Option (List String)
deriving DecidableEq

structure SearchEffects where
  cache : Option Bool
  probes : Nat
  index_queries : Nat
deriving DecidableEq

/-- The default entity types: if not entity_types covers None and empty. -/
def resolvedTypes (entity_types : Option (List String)) : List String :=
  match entity_types with
  | none => ["firm", "fund", "company"]
  | some [] => ["firm", "fund", "company"]
  | some ts => ts

/-- The query embedding and search_type selection: semantic search needs
use_semantic and an available index, and falls back to fts_only when the
embedding fails. -/
def embedChoice (env : SearchEnv) (avail : Bool) (use_semantic : Bool) (query : String) :
    Option (List ℚ) × String :=
  if use_semantic && avail then
    match env.embed query with
    | some emb => (some emb, "hybrid")
    | none => (none, "fts_only")
  else (none, "fts_only")

/-- Candidate documents after the entity-type and filter conditions. -/
def baseDocs (env : SearchEnv) (types : List String) (filters : Option SearchFilters) :
    List EntityDoc :=
  env.docs.filter (fun d => types.contains d.entity_type && filterPass filters d)

/-- The FTS-only SELECT: lexical predicate, zero semantic score, combined
score equal to ts_rank. -/
def ftsItems (env : SearchEnv) (query : String) (types : List String)
    (filters : Option SearchFilters) : List SearchItem :=
  ((baseDocs env types filters).filter (fun d => env.tsMatch query d)).map
    (fun d => SearchItem.mk d.entity_type d.entity_id d.title (env.tsRank query d) 0
      (env.tsRank query d))

/-- The hybrid SELECT: lexical predicate or semantic floor above six
tenths, semantic score for embedded documents, weighted three tenths
lexical plus seven tenths semantic. -/
def hybridItems (env : SearchEnv) (query : String) (emb : List ℚ) (types : List String)
    (filters : Option SearchFilters) : List SearchItem :=
  ((baseDocs env types filters).filter
    (fun d => env.tsMatch query d || (d.has_embedding && decide ((6 : ℚ)/10 < env.semSim emb d)))).map
    (fun d =>
      SearchItem.mk d.entity_type d.entity_id d.title (env.tsRank query d)
        (if d.has_embedding then env.semSim emb d else 0)
        (if d.has_embedding then
          (3 : ℚ)/10 * env.tsRank query d + (7 : ℚ)/10 * env.semSim emb d
        else env.tsRank query d))

def searchItems (env : SearchEnv) (query : String) (types : List String)
    (filters : Option SearchFilters) (qe : Option (List ℚ)) : List SearchItem :=
  match qe with
  | some emb => hybridItems env query emb types filters
  | none => ftsItems env query types filters

/-- ORDER BY combined_score DESC. -/
def scoreLe (a b : SearchItem) : Bool := decide (b.score ≤ a.score)

/-- Embeds hybrid_search of hybrid_search.py.  Returns the response dict
together with the new cache state and the numbers of availability probes
and document-table queries the call performed. -/
def hybrid_search (env : SearchEnv) (cache : Option Bool) (query : String)
    (entity_types : Option (List String)) (filters : Option SearchFilters)
    (use_semantic : Bool) (limit : Nat) : SearchOutput × SearchEffects :=
  if query.isEmpty || decide ((pyStrip query).length < 2) then
    (SearchOutput.mk query [] 0 "none" none, SearchEffects.mk cache 0 0)
  else
    (SearchOutput.mk query
      (((searchItems env query (resolvedTypes entity_types) filters
          (embedChoice env (check_pgvector_available env cache).1 use_semantic query).1).mergeSort
        scoreLe).take limit)
      (((searchItems env query (resolvedTypes entity_types) filters
          (embedChoice env (check_pgvector_available env cache).1 use_semantic query).1).mergeSort
        scoreLe).take limit).length
      (embedChoice env (check_pgvector_available env cache).1 use_semantic query).2
      (some (resolvedTypes entity_types)),
    SearchEffects.mk (check_pgvector_available env cache).2.1
      (check_pgvector_available env cache).2.2 1)

theorem scoreLe_trans (a b c : SearchItem) (h1 : scoreLe a b) (h2 : scoreLe b c) :
    scoreLe a c = true := by
  unfold scoreLe at h1 h2 ⊢
  rw [decide_eq_true_eq] at h1 h2 ⊢
  exact le_trans h2 h1

theorem scoreLe_total (a b : SearchItem) : scoreLe a b || scoreLe b a := by
  unfold scoreLe
  rcases le_total a.score b.score with h | h
  · rw [Bool.or_eq_true, decide_eq_true_eq, decide_eq_true_eq]
    exact Or.inr h
  · rw [Bool.or_eq_true, decide_eq_true_eq, decide_eq_true_eq]
    exact Or.inl h

theorem ftsItems_scores (env : SearchEnv) (query : String) (types : List String)
    (filters : Option SearchFilters) (it : SearchItem)
    (h : it ∈ ftsItems env query types filters) :
    it.score = it.text_score ∧ it.semantic_score = 0 := by
  unfold ftsItems at h
  rw [List.mem_map] at h
  obtain ⟨d, _, hd⟩ := h
  rw [hd.symm]
  exact And.intro rfl rfl

/-! ## Claim theorems -/

/-- C7: the value parsers are pure and total — in the embedding each is a
total function into an Option, returning a value or none and never raising —
and on the spec's examples: parse_currency of an em dash is absent,
parse_currency of 1.5 billion dollars is 1500000000, parse_year of the text
Vintage 2019 is 2019, and parse_percentage of the text 15 percent and of the
number 0.15 are both 0.15. -/
theorem C7_parsers_total_and_examples :
    parse_currency (PyVal.pystr "—") = none
    ∧ parse_currency (PyVal.pystr "$1.5B") = some (1500000000 : ℚ)
    ∧ parse_year (PyVal.pystr "Vintage 2019") = some 2019
    ∧ parse_percentage (PyVal.pystr "15%") = some ((15 : ℚ) / 100)
    ∧ parse_percentage (PyVal.pyfloat ((15 : ℚ) / 100)) = some ((15 : ℚ) / 100)
    ∧ (∀ v, (parse_currency v).isSome = true ∨ parse_currency v = none)
    ∧ (∀ v, (parse_date v).isSome = true ∨ parse_date v = none)
    ∧ (∀ v, (parse_year v).isSome = true ∨ parse_year v = none)
    ∧ (∀ v, (parse_percentage v).isSome = true ∨ parse_percentage v = none) := by
  refine ⟨?_, ?_, ?_, ?_, ?_, ?_, ?_, ?_, ?_⟩
  · simp [parse_currency, pyvalStr, pyStrip, stripList, pyLower, currencyPlaceholders,
      removeCurrencySymbols, currencySymbols, hasBillionMark, hasMillionMark, hasThousandMark,
      lcHas, lcStartsWith, endsWithLC, bnPat, billionPat, mnPat, millionPat, thousandPat,
      subBillion, subMillion, subThousand, parseNumQ, parseMantissa, parseNumTail,
      digitsToNat, digitVal]
  · have he : "$1.5B".isEmpty = false := by decide
    simp [parse_currency, pyvalStr, pyStrip, stripList, pyLower, currencyPlaceholders,
      removeCurrencySymbols, currencySymbols, hasBillionMark, hasMillionMark, hasThousandMark,
      lcHas, lcStartsWith, endsWithLC, bnPat, billionPat, mnPat, millionPat, thousandPat,
      subBillion, subMillion, subThousand, parseNumQ, parseMantissa, parseNumTail,
      digitsToNat, digitVal, he]
    norm_num
  · decide
  · have he : "15%".isEmpty = false := by decide
    simp [parse_percentage, pyStrip, stripList, pyLower, naPlaceholders, parseNumQ,
      parseMantissa, parseNumTail, digitsToNat, digitVal, he]
    norm_num
  · have h1 : (-1 : ℚ) ≤ (15 : ℚ) / 100 ∧ (15 : ℚ) / 100 ≤ 1 := by norm_num
    simp [parse_percentage, pctOfNum, h1]
  · intro v
    cases parse_currency v <;> simp
  · intro v
    cases parse_date v <;> simp
  · intro v
    cases parse_year v <;> simp
  · intro v
    cases parse_percentage v <;> simp

/-- C8 counterexample: the claim says an out-of-range numeric value is
passed through unchanged, but parse_percentage of the number 150 is absent,
not 150. -/
theorem C8_counterexample_out_of_range :
    parse_percentage (PyVal.pyint 150) = none ∧ (none : Option ℚ) ≠ some (150 : ℚ) := by
  constructor
  · norm_num [parse_percentage, pctOfNum]
  · simp

/-- C8 (amended): for a numeric input, a value within minus one to one is
returned unchanged, a value within minus one hundred to one hundred but
outside that is divided by one hundred, and a numeric value outside minus
one hundred to one hundred yields absent (None), not the value itself; an
int input behaves as the same number. -/
theorem C8_percentage_numeric_ranges (q : ℚ) (n : Int) :
    (-1 ≤ q ∧ q ≤ 1 → parse_percentage (PyVal.pyfloat q) = some q)
    ∧ (-100 ≤ q ∧ q ≤ 100 → ¬(-1 ≤ q ∧ q ≤ 1) →
        parse_percentage (PyVal.pyfloat q) = some (q / 100))
    ∧ (¬(-100 ≤ q ∧ q ≤ 100) → parse_percentage (PyVal.pyfloat q) = none)
    ∧ parse_percentage (PyVal.pyint n) = pctOfNum (n : ℚ) := by
  refine ⟨?_, ?_, ?_, rfl⟩
  · intro h
    simp [parse_percentage, pctOfNum, h]
  · intro h hno
    show pctOfNum q = some (q / 100)
    unfold pctOfNum
    rw [if_neg hno, if_pos h]
  · intro h
    have hno : ¬(-1 ≤ q ∧ q ≤ 1) := by
      intro hc
      exact h (And.intro (by linarith [hc.1]) (by linarith [hc.2]))
    show pctOfNum q = none
    unfold pctOfNum
    rw [if_neg hno, if_neg h]

theorem C8_percentage_numeric_ranges_witness :
    parse_percentage (PyVal.pyfloat ((1 : ℚ) / 2)) = some ((1 : ℚ) / 2)
    ∧ parse_percentage (PyVal.pyfloat 50) = some ((50 : ℚ) / 100)
    ∧ parse_percentage (PyVal.pyfloat 150) = none :=
  And.intro ((C8_percentage_numeric_ranges ((1 : ℚ) / 2) 0).1 (by norm_num))
    (And.intro ((C8_percentage_numeric_ranges 50 0).2.1 (by norm_num) (by norm_num))
      ((C8_percentage_numeric_ranges 150 0).2.2.1 (by norm_num)))

def c2dif : DealInvestorFirmRow :=
  DealInvestorFirmRow.mk 1 7 none "Mystery Capital" none none (some "unresolved") none

/-- C2: evaluation at the failing input — one unresolved deal-investor row
is quarantined once by the first sweep, but a second sweep over the same
row inserts a second quarantine record for the same offender, because the
quarantine table's only unique constraint is its always-fresh primary key
and the ON CONFLICT DO NOTHING clause never fires; a database failure in
the sweep is caught and returns zero without failing the caller. -/
theorem C2_quarantine_resweep_duplicates :
    (quarantine_unresolved_investors (QuarantineState.mk [] 0) [c2dif] none false).1 = 1
    ∧ quarantineCountFor
        (quarantine_unresolved_investors (QuarantineState.mk [] 0) [c2dif] none false).2.table
        "1" = 1
    ∧ quarantineCountFor
        (quarantine_unresolved_investors
          (quarantine_unresolved_investors (QuarantineState.mk [] 0) [c2dif] none false).2
          [c2dif] none false).2.table "1" = 2
    ∧ (2 : Nat) ≠ 1
    ∧ ∀ st difs rid, quarantine_unresolved_investors st difs rid true = (0, st) := by
  refine ⟨rfl, rfl, rfl, by omega, ?_⟩
  intro st difs rid
  rfl

/-- C10: a query that is empty or whose stripped form is shorter than two
characters returns an empty result list with total zero and search_type
none, with no availability probe and no document-table query, and the
cache unchanged. -/
theorem C10_short_query_short_circuit (env : SearchEnv) (cache : Option Bool)
    (query : String) (entity_types : Option (List String)) (filters : Option SearchFilters)
    (use_semantic : Bool) (limit : Nat)
    (h : query = "" ∨ (pyStrip query).length < 2) :
    hybrid_search env cache query entity_types filters use_semantic limit
      = (SearchOutput.mk query [] 0 "none" none, SearchEffects.mk cache 0 0) := by
  unfold hybrid_search
  have hc : (query.isEmpty || decide ((pyStrip query).length < 2)) = true := by
    rcases h with rfl | h
    · rfl
    · rw [Bool.or_eq_true, decide_eq_true_eq]
      exact Or.inr h
  rw [if_pos hc]

def c10env : SearchEnv :=
  SearchEnv.mk false (fun _ => none) [] (fun _ _ => 0) (fun _ _ => false) (fun _ _ => 0)

theorem C10_short_query_short_circuit_witness :
    (" a " = "" ∨ (pyStrip " a ").length < 2)
    ∧ hybrid_search c10env none " a " none none true 20
      = (SearchOutput.mk " a " [] 0 "none" none, SearchEffects.mk none 0 0) :=
  And.intro (Or.inr (by decide))
    (C10_short_query_short_circuit c10env none " a " none none true 20 (Or.inr (by decide)))

def c1row1 : SilverFirmRow where
  source_firm_id := some "A"
  preqin_firm_id := none
  source_type := some "gp"
  firm_name := some "Acme"
  firm_name_normalized := some "acme"
  firm_type := none
  institution_type := none
  headquarters_city := none
  headquarters_country := none
  headquarters_region := none
  aum_usd := some 1
  aum_raw := none
  dry_powder_usd := none
  website := none
  description := none
  year_founded := none
  source_file := none
  source_sheet := none
  source_row_number := 1
  run_id := none

def c1row2 : SilverFirmRow where
  source_firm_id := some "A"
  preqin_firm_id := none
  source_type := some "gp"
  firm_name := some "Acme Corp"
  firm_name_normalized := some "acme corp"
  firm_type := none
  institution_type := none
  headquarters_city := none
  headquarters_country := none
  headquarters_region := none
  aum_usd := some 2
  aum_raw := none
  dry_powder_usd := none
  website := none
  description := none
  year_founded := none
  source_file := none
  source_sheet := none
  source_row_number := 2
  run_id := none

def c1row3 : SilverFirmRow where
  source_firm_id := some "B"
  preqin_firm_id := none
  source_type := some "lp"
  firm_name := some "Best"
  firm_name_normalized := some "best"
  firm_type := none
  institution_type := none
  headquarters_city := none
  headquarters_country := none
  headquarters_region := none
  aum_usd := none
  aum_raw := none
  dry_powder_usd := none
  website := none
  description := none
  year_founded := none
  source_file := none
  source_sheet := none
  source_row_number := 3
  run_id := none

/-- C1 counterexample: on a 3-row sheet where rows 1 and 2 share source_id A
(row 1 name Acme aum 1, row 2 name Acme Corp aum 2), extraction yields 2
firms as claimed, but the record for A keeps the EARLIER row's name Acme and
aum 1: the later duplicate row is dropped by DISTINCT ON before the upsert,
so its non-null fields do not overwrite the earlier row's fields. -/
theorem C1_counterexample_later_row_dropped :
    (extract_firms [c1row1, c1row2, c1row3] []).length = 2
    ∧ (goldLookup (extract_firms [c1row1, c1row2, c1row3] []) "A").map GoldFirm.name
        = some "Acme"
    ∧ ¬((goldLookup (extract_firms [c1row1, c1row2, c1row3] []) "A").map GoldFirm.name
        = some "Acme Corp")
    ∧ (goldLookup (extract_firms [c1row1, c1row2, c1row3] []) "A").map GoldFirm.aum_usd
        = some (some 1)
    ∧ ¬((goldLookup (extract_firms [c1row1, c1row2, c1row3] []) "A").map GoldFirm.aum_usd
        = some (some 2)) := by
  refine ⟨rfl, rfl, ?_, rfl, ?_⟩
  · have h : (goldLookup (extract_firms [c1row1, c1row2, c1row3] []) "A").map GoldFirm.name
        = some "Acme" := rfl
    rw [h]
    decide
  · have h : (goldLookup (extract_firms [c1row1, c1row2, c1row3] []) "A").map GoldFirm.aum_usd
        = some (some (1 : ℚ)) := rfl
    rw [h]
    intro hc
    have h2 : (some (1 : ℚ)) = some (2 : ℚ) := Option.some.inj hc
    have h3 : (1 : ℚ) = 2 := Option.some.inj h2
    norm_num at h3

/-- C1 (amended): with three valid rows of which the first two share the
COALESCEd source id and the first has the smaller row number, extraction
keeps only the earliest duplicate row — the later row is discarded entirely,
its fields never applied — and yields the rows 1 and 3 records; separately,
upserting onto an existing stored record with the same key overwrites only
name and name_normalized unconditionally, applies aum_usd and
dry_powder_usd only when the incoming value is non-null (COALESCE), and
preserves every other stored column. -/
theorem C1_extract_firms_amended (r1 r2 r3 : SilverFirmRow) (t g : GoldFirm)
    (h12 : firmKey r1 = firmKey r2) (h13 : firmKey r1 ≠ firmKey r3)
    (hrow : r1.source_row_number < r2.source_row_number)
    (hv1 : validFirmRow r1 = true) (hv2 : validFirmRow r2 = true)
    (hv3 : validFirmRow r3 = true) :
    extract_firms [r1, r2, r3] [] = [goldOfRow r1, goldOfRow r3]
    ∧ (t.source_system = g.source_system → t.source_id = g.source_id →
        upsertFirm [t] g = [{ t with
          name := g.name
          name_normalized := g.name_normalized
          aum_usd := match g.aum_usd with
            | some v => some v
            | none => t.aum_usd
          dry_powder_usd := match g.dry_powder_usd with
            | some v => some v
            | none => t.dry_powder_usd }]) := by
  constructor
  · have hv1s : (firmKey r1).isSome = true := by
      have h := hv1
      simp only [validFirmRow, Bool.and_eq_true] at h
      exact h.2
    have hv3s : (firmKey r3).isSome = true := by
      have h := hv3
      simp only [validFirmRow, Bool.and_eq_true] at h
      exact h.2
    obtain ⟨a, ha⟩ := Option.isSome_iff_exists.mp hv1s
    obtain ⟨b, hb⟩ := Option.isSome_iff_exists.mp hv3s
    have hab : a ≠ b := by
      intro hab
      apply h13
      rw [ha, hb, hab]
    have hded : firmsDeduped [r1, r2, r3] = [r1, r3] := by
      have d12 : decide (r1.source_row_number ≤ r2.source_row_number) = true :=
        decide_eq_true (Nat.le_of_lt hrow)
      have d21 : decide (r2.source_row_number ≤ r1.source_row_number) = false :=
        decide_eq_false (Nat.not_le.mpr hrow)
      have b21 : (firmKey r2 == firmKey r1) = true := beq_iff_eq.mpr h12.symm
      have b12 : (firmKey r1 == firmKey r2) = true := beq_iff_eq.mpr h12
      have b31 : (firmKey r3 == firmKey r1) = false := beq_eq_false_iff_ne.mpr h13.symm
      have b13 : (firmKey r1 == firmKey r3) = false := beq_eq_false_iff_ne.mpr h13
      have h23 : firmKey r2 ≠ firmKey r3 := h12 ▸ h13
      have b32 : (firmKey r3 == firmKey r2) = false := beq_eq_false_iff_ne.mpr h23.symm
      have b23 : (firmKey r2 == firmKey r3) = false := beq_eq_false_iff_ne.mpr h23
      simp [firmsDeduped, hv1, hv2, hv3, b21, b12, b31, b13, b32, b23, d12, d21]
    have hsid : ((goldOfRow r1).source_id == (goldOfRow r3).source_id) = false := by
      show ((firmKey r1).getD "" == (firmKey r3).getD "") = false
      rw [ha, hb]
      exact beq_eq_false_iff_ne.mpr hab
    unfold extract_firms
    rw [hded]
    show upsertFirm (upsertFirm [] (goldOfRow r1)) (goldOfRow r3)
      = [goldOfRow r1, goldOfRow r3]
    have h1 : upsertFirm [] (goldOfRow r1) = [goldOfRow r1] := by
      simp [upsertFirm]
    rw [h1]
    simp [upsertFirm, hsid]
  · intro hss hsid
    simp [upsertFirm, hss, hsid]

theorem C1_extract_firms_amended_witness :
    (firmKey c1row1 = firmKey c1row2 ∧ firmKey c1row1 ≠ firmKey c1row3
      ∧ c1row1.source_row_number < c1row2.source_row_number
      ∧ validFirmRow c1row1 = true ∧ validFirmRow c1row2 = true
      ∧ validFirmRow c1row3 = true)
    ∧ extract_firms [c1row1, c1row2, c1row3] [] = [goldOfRow c1row1, goldOfRow c1row3] := by
  refine ⟨⟨by decide, by decide, by decide, by decide, by decide, by decide⟩, ?_⟩
  exact (C1_extract_firms_amended c1row1 c1row2 c1row3 (goldOfRow c1row2) (goldOfRow c1row1)
    (by decide) (by decide) (by decide) (by decide) (by decide) (by decide)).1

/-- C4: every aggregate the edge rebuild stores lives at a canonical key
with firm_a_id < firm_b_id, the reversed pair of an unordered firm pair
holds no row, and rebuilding from the same relationship rows and deals in
any order yields the same edge at every key and the same skipped count. -/
theorem C4_edge_ordering_and_determinism
    (rows1 rows2 : List DealInvestorFirmRow) (deals1 deals2 : List Deal)
    (maxInv : Nat) (p : Nat × Nat)
    (hr : rows1.Perm rows2) (hd : deals1.Perm deals2) :
    (∀ e, (generate_co_investment_edges rows1 deals1 maxInv).edge_of p = some e →
        p.1 < p.2)
    ∧ (¬ p.1 < p.2 → (generate_co_investment_edges rows1 deals1 maxInv).edge_of p = none)
    ∧ (generate_co_investment_edges rows1 deals1 maxInv).edge_of p
        = (generate_co_investment_edges rows2 deals2 maxInv).edge_of p
    ∧ (generate_co_investment_edges rows1 deals1 maxInv).high_degree_deals_skipped
        = (generate_co_investment_edges rows2 deals2 maxInv).high_degree_deals_skipped := by
  refine ⟨?_, ?_, ?_, ?_⟩
  · intro e he
    change edgeFor rows1 deals1 maxInv p = some e at he
    unfold edgeFor at he
    cases hg : edgeGroup rows1 deals1 maxInv p with
    | nil =>
      rw [hg] at he
      simp at he
    | cons r t =>
      have hrmem : r ∈ edgeGroup rows1 deals1 maxInv p := by
        rw [hg]
        exact List.mem_cons_self r t
      have hm := List.mem_filter.mp hrmem
      have hkey : edgeKeyOf r.firm_a_id r.firm_b_id = p := beq_iff_eq.mp hm.2
      have hlt := pairRows_ordered rows1 deals1 maxInv r hm.1
      rw [← hkey]
      show min r.firm_a_id r.firm_b_id < max r.firm_a_id r.firm_b_id
      rw [Nat.min_eq_left (Nat.le_of_lt hlt), Nat.max_eq_right (Nat.le_of_lt hlt)]
      exact hlt
  · intro hnp
    change edgeFor rows1 deals1 maxInv p = none
    have hnil : edgeGroup rows1 deals1 maxInv p = [] := by
      unfold edgeGroup
      rw [List.filter_eq_nil_iff]
      intro r hrmem hbeq
      have hkey : edgeKeyOf r.firm_a_id r.firm_b_id = p := beq_iff_eq.mp hbeq
      have hlt := pairRows_ordered rows1 deals1 maxInv r hrmem
      apply hnp
      rw [← hkey]
      show min r.firm_a_id r.firm_b_id < max r.firm_a_id r.firm_b_id
      rw [Nat.min_eq_left (Nat.le_of_lt hlt), Nat.max_eq_right (Nat.le_of_lt hlt)]
      exact hlt
    unfold edgeFor
    rw [hnil]
    rfl
  · exact edgeFor_perm hr hd maxInv p
  · show (skippedDeals rows1 deals1 maxInv).length = (skippedDeals rows2 deals2 maxInv).length
    unfold skippedDeals
    have hpred : (fun d : Deal => decide (maxInv < resolvedCount rows1 d.id))
        = (fun d : Deal => decide (maxInv < resolvedCount rows2 d.id)) := by
      funext d
      rw [resolvedCount_perm hr]
    rw [hpred]
    exact (List.Perm.filter _ hd).length_eq

def c4a : DealInvestorFirmRow :=
  DealInvestorFirmRow.mk 1 5 (some 1) "Alpha" none none (some "resolved") none

def c4b : DealInvestorFirmRow :=
  DealInvestorFirmRow.mk 2 5 (some 2) "Beta" none none (some "resolved") none

def c4deal : Deal := Deal.mk 5 none none none

theorem C4_edge_ordering_and_determinism_witness :
    ([c4a, c4b] : List DealInvestorFirmRow).Perm [c4b, c4a]
    ∧ ([c4deal] : List Deal).Perm [c4deal]
    ∧ (¬ (2, 1).1 < (2, 1).2 →
        (generate_co_investment_edges [c4a, c4b] [c4deal] 50).edge_of (2, 1) = none)
    ∧ (generate_co_investment_edges [c4a, c4b] [c4deal] 50).edge_of (2, 1)
        = (generate_co_investment_edges [c4b, c4a] [c4deal] 50).edge_of (2, 1) := by
  have h := C4_edge_ordering_and_determinism [c4a, c4b] [c4b, c4a] [c4deal] [c4deal] 50 (2, 1)
    (List.Perm.swap c4b c4a []) (List.Perm.refl [c4deal])
  exact ⟨List.Perm.swap c4b c4a [], List.Perm.refl [c4deal], h.2.1, h.2.2.1⟩

/-- C5: a deal whose resolved investor count exceeds the threshold
contributes no pairing join row — hence no edge aggregates any of its
rows — and the deal is listed in the skipped set, so the returned
high_degree_deals_skipped count is positive and the threshold is echoed. -/
theorem C5_high_degree_guardrail (rows : List DealInvestorFirmRow) (deals : List Deal)
    (maxInv : Nat) (d : Deal) (hmem : d ∈ deals)
    (hcount : maxInv < resolvedCount rows d.id) :
    (∀ r ∈ pairRows rows deals maxInv, r.deal.id ≠ d.id)
    ∧ d ∈ skippedDeals rows deals maxInv
    ∧ 0 < (generate_co_investment_edges rows deals maxInv).high_degree_deals_skipped
    ∧ (generate_co_investment_edges rows deals maxInv).max_investors_threshold = maxInv := by
  have hskip : d ∈ skippedDeals rows deals maxInv := by
    unfold skippedDeals
    rw [List.mem_filter]
    exact ⟨hmem, decide_eq_true hcount⟩
  refine ⟨?_, hskip, ?_, rfl⟩
  · intro r hr
    exact pairRows_excludes_high_degree rows deals maxInv d.id hcount r hr
  · exact List.length_pos_of_mem hskip

def c5rows : List DealInvestorFirmRow :=
  (List.range 60).map
    (fun i => DealInvestorFirmRow.mk i 1 (some i) "syndicate member" none none
      (some "resolved") none)

def c5deal : Deal := Deal.mk 1 none none none

theorem C5_high_degree_guardrail_witness :
    (c5deal ∈ ([c5deal] : List Deal) ∧ 50 < resolvedCount c5rows c5deal.id)
    ∧ c5deal ∈ skippedDeals c5rows [c5deal] 50
    ∧ 0 < (generate_co_investment_edges c5rows [c5deal] 50).high_degree_deals_skipped := by
  have h := C5_high_degree_guardrail c5rows [c5deal] 50 c5deal
    (List.mem_singleton.mpr rfl) (by decide)
  exact ⟨⟨List.mem_singleton.mpr rfl, by decide⟩, h.2.1, h.2.2.1⟩

/-- C3: clustering via union-find is transitive — when match(A,B) and
match(B,C) are both in the match list, cluster_matches maps A, B and C to
one canonical id even though (A,C) was never directly compared — and the
canonical grouping it induces is invariant to the ordering of the match
list. -/
theorem C3_cluster_transitive_and_order_invariant {α : Type} [DecidableEq α]
    (ms1 ms2 : List (α × α)) (A B C : α)
    (hAB : (A, B) ∈ ms1) (hBC : (B, C) ∈ ms1) (hperm : ms1.Perm ms2) :
    UF.sameCanonical ms1 A B ∧ UF.sameCanonical ms1 B C ∧ UF.sameCanonical ms1 A C
    ∧ (∀ a b, UF.sameCanonical ms1 a b ↔ UF.sameCanonical ms2 a b) := by
  have hnA : UF.nodeOf ms1 A := ⟨(A, B), hAB, Or.inl rfl⟩
  have hnB : UF.nodeOf ms1 B := ⟨(A, B), hAB, Or.inr rfl⟩
  have hnC : UF.nodeOf ms1 C := ⟨(B, C), hBC, Or.inr rfl⟩
  have heAB : Relation.EqvGen (UF.edgeRel ms1) A B :=
    Relation.EqvGen.rel A B (Or.inl hAB)
  have heBC : Relation.EqvGen (UF.edgeRel ms1) B C :=
    Relation.EqvGen.rel B C (Or.inl hBC)
  have hedge : ∀ u v, UF.edgeRel ms1 u v ↔ UF.edgeRel ms2 u v := by
    intro u v
    unfold UF.edgeRel
    rw [hperm.mem_iff, hperm.mem_iff]
  have heqv : ∀ u v, Relation.EqvGen (UF.edgeRel ms1) u v
      ↔ Relation.EqvGen (UF.edgeRel ms2) u v := by
    intro u v
    constructor <;> intro h <;> refine Relation.EqvGen.mono ?_ h <;> intro x y hxy
    · exact (hedge x y).mp hxy
    · exact (hedge x y).mpr hxy
  have hnode : ∀ z, UF.nodeOf ms1 z ↔ UF.nodeOf ms2 z := by
    intro z
    unfold UF.nodeOf
    constructor <;> rintro ⟨p, hp, hz⟩
    · exact ⟨p, hperm.mem_iff.mp hp, hz⟩
    · exact ⟨p, hperm.mem_iff.mpr hp, hz⟩
  refine ⟨?_, ?_, ?_, ?_⟩
  · exact (UF.sameCanonical_iff ms1 A B).mpr ⟨hnA, hnB, heAB⟩
  · exact (UF.sameCanonical_iff ms1 B C).mpr ⟨hnB, hnC, heBC⟩
  · exact (UF.sameCanonical_iff ms1 A C).mpr ⟨hnA, hnC, heAB.trans A B C heBC⟩
  · intro a b
    rw [UF.sameCanonical_iff, UF.sameCanonical_iff, hnode a, hnode b, heqv a b]

theorem C3_cluster_transitive_and_order_invariant_witness :
    (((1, 2) : Nat × Nat) ∈ [((1, 2) : Nat × Nat), (2, 3)]
      ∧ ((2, 3) : Nat × Nat) ∈ [((1, 2) : Nat × Nat), (2, 3)]
      ∧ ([((1, 2) : Nat × Nat), (2, 3)]).Perm [(2, 3), (1, 2)])
    ∧ UF.sameCanonical [((1, 2) : Nat × Nat), (2, 3)] 1 3
    ∧ (UF.sameCanonical [((1, 2) : Nat × Nat), (2, 3)] 1 3
        ↔ UF.sameCanonical [((2, 3) : Nat × Nat), (1, 2)] 1 3) := by
  have h := C3_cluster_transitive_and_order_invariant
    [((1, 2) : Nat × Nat), (2, 3)] [(2, 3), (1, 2)] 1 2 3
    (by decide) (by decide) (List.Perm.swap (2, 3) (1, 2) [])
  exact ⟨⟨by decide, by decide, List.Perm.swap (2, 3) (1, 2) []⟩, h.2.2.1, h.2.2.2 1 3⟩

/-- C6: with well-formed edges, the traversal clamps the hop count to 3
whatever was requested, every bucket of the returned network is keyed by a
hop between 1 and 3 and holds only entries at that distance, every returned
entry names a firm other than the origin and carries the minimum hop
distance over all CTE rows that reached the firm, and no CTE row revisits
a firm on its own path, exceeds hop 3 or names the origin. -/
theorem C6_network_hops_bounded (edges : List CoEdge) (firms : List FirmRec)
    (origin max_hops min_deals limit_per_hop : Nat)
    (hw : ∀ e ∈ edges, e.firm_a_id < e.firm_b_id) :
    (get_network_hops edges firms origin max_hops min_deals limit_per_hop).max_hops ≤ 3
    ∧ (∀ k entries,
        (k, entries)
            ∈ (get_network_hops edges firms origin max_hops min_deals limit_per_hop).buckets →
          1 ≤ k ∧ k ≤ 3
          ∧ ∀ en ∈ entries, en.distance = k ∧ en.firm_id ≠ origin
            ∧ (∃ n ∈ networkRows edges origin (cappedHops max_hops) min_deals,
                n.firm_id = en.firm_id ∧ n.hop = en.distance)
            ∧ (∀ n ∈ networkRows edges origin (cappedHops max_hops) min_deals,
                n.firm_id = en.firm_id → en.distance ≤ n.hop))
    ∧ (∀ n ∈ networkRows edges origin (cappedHops max_hops) min_deals,
        n.firm_id ≠ origin ∧ 1 ≤ n.hop ∧ n.hop ≤ 3 ∧ n.firm_id ∉ n.path) := by
  have hcap : cappedHops max_hops ≤ 3 := by
    unfold cappedHops
    split <;> omega
  have hok := networkRows_ok edges origin (cappedHops max_hops) min_deals hw
  refine ⟨hcap, ?_, ?_⟩
  · intro k entries hk
    simp only [get_network_hops] at hk
    rw [List.mem_map] at hk
    obtain ⟨j, hj, hje⟩ := hk
    rw [Prod.mk.injEq] at hje
    obtain ⟨rfl, rfl⟩ := hje
    rw [List.mem_map] at hj
    obtain ⟨i, hi, hij⟩ := hj
    rw [List.mem_range] at hi
    refine ⟨by omega, by omega, ?_⟩
    intro en hen
    have hen1 := List.take_subset _ _ hen
    rw [List.mem_filter] at hen1
    obtain ⟨henl, hend⟩ := hen1
    have hdistk : en.distance = j := beq_iff_eq.mp hend
    have hle := mem_limitedEntries edges firms origin max_hops min_deals limit_per_hop en henl
    have hme := mem_hopEntries firms
      (networkRows edges origin (cappedHops max_hops) min_deals) en hle
    obtain ⟨⟨n, hn, hnf⟩, hdist⟩ := hme
    have hnorig : en.firm_id ≠ origin := by
      rw [← hnf]
      exact (hok n hn).1
    have hhops : n.hop ∈ hopsOf (networkRows edges origin (cappedHops max_hops) min_deals)
        en.firm_id := hop_mem_hopsOf _ n hn en.firm_id hnf
    have hne : hopsOf (networkRows edges origin (cappedHops max_hops) min_deals)
        en.firm_id ≠ [] := by
      intro h0
      rw [h0] at hhops
      simp at hhops
    refine ⟨hdistk, hnorig, ?_, ?_⟩
    · have hmm := natMinList_mem _ hne
      rw [← hdist] at hmm
      unfold hopsOf at hmm
      rw [List.mem_map] at hmm
      obtain ⟨m, hm, hmhop⟩ := hmm
      rw [List.mem_filter] at hm
      exact ⟨m, hm.1, beq_iff_eq.mp hm.2, hmhop⟩
    · intro m hm hmf
      rw [hdist]
      exact natMinList_le _ m.hop (hop_mem_hopsOf _ m hm en.firm_id hmf)
  · intro n hn
    obtain ⟨h1, h2, h3, h4⟩ := hok n hn
    refine ⟨h1, h2, ?_, h4⟩
    have : max (cappedHops max_hops) 1 ≤ 3 := by omega
    omega

def c6edges : List CoEdge :=
  [CoEdge.mk 1 2 3 none, CoEdge.mk 2 3 2 none, CoEdge.mk 3 4 1 none,
    CoEdge.mk 4 5 1 none, CoEdge.mk 5 6 1 none]

def c6firms : List FirmRec :=
  (List.range 7).map (fun i => FirmRec.mk i "firm" none none none)

theorem C6_network_hops_bounded_witness :
    (∀ e ∈ c6edges, e.firm_a_id < e.firm_b_id)
    ∧ (get_network_hops c6edges c6firms 1 5 1 10).max_hops ≤ 3
    ∧ ∀ n ∈ networkRows c6edges 1 (cappedHops 5) 1,
        n.firm_id ≠ 1 ∧ n.hop ≤ 3 := by
  have h := C6_network_hops_bounded c6edges c6firms 1 5 1 10 (by decide)
  exact ⟨by decide, h.1,
    fun n hn => ⟨(h.2.2 n hn).1, (h.2.2 n hn).2.2.1⟩⟩

/-- C9: the semantic-availability check probes the database only when the
process cache is empty and caches its outcome, so no later call probes
again; and with the index unavailable, or with the embedding service
failing on the query, a semantic search request still answers with
search_type fts_only, its results exactly the lexically ranked FTS rows —
sorted by descending combined score, which for FTS rows is the lexical
score with a zero semantic score. -/
theorem C9_availability_cached_and_fts_fallback (env : SearchEnv)
    (query : String) (entity_types : Option (List String)) (filters : Option SearchFilters)
    (limit : Nat) (b : Bool)
    (hq : (query.isEmpty || decide ((pyStrip query).length < 2)) = false) :
    check_pgvector_available env (some b) = (b, some b, 0)
    ∧ check_pgvector_available env none = (env.probe, some env.probe, 1)
    ∧ (∀ cache, (check_pgvector_available env
        (check_pgvector_available env cache).2.1).2.2 = 0)
    ∧ (hybrid_search env (some false) query entity_types filters true limit).1.search_type
        = "fts_only"
    ∧ (hybrid_search env (some false) query entity_types filters true limit).1.results
        = ((ftsItems env query (resolvedTypes entity_types) filters).mergeSort scoreLe).take
            limit
    ∧ (hybrid_search env (some false) query entity_types filters true limit).2.probes = 0
    ∧ (env.embed query = none →
        (hybrid_search env (some true) query entity_types filters true limit).1.search_type
          = "fts_only"
        ∧ (hybrid_search env (some true) query entity_types filters true limit).1.results
          = ((ftsItems env query (resolvedTypes entity_types) filters).mergeSort
              scoreLe).take limit)
    ∧ ((hybrid_search env (some false) query entity_types filters
        true limit).1.results).Pairwise (fun a b => b.score ≤ a.score)
    ∧ (∀ it ∈ (hybrid_search env (some false) query entity_types filters
        true limit).1.results, it.score = it.text_score ∧ it.semantic_score = 0) := by
  have hcond : ¬(query.isEmpty || decide ((pyStrip query).length < 2)) = true := by
    rw [hq]
    exact Bool.false_ne_true
  have hfull : hybrid_search env (some false) query entity_types filters true limit
      = (SearchOutput.mk query
          (((ftsItems env query (resolvedTypes entity_types) filters).mergeSort
            scoreLe).take limit)
          ((((ftsItems env query (resolvedTypes entity_types) filters).mergeSort
            scoreLe).take limit)).length
          "fts_only" (some (resolvedTypes entity_types)),
        SearchEffects.mk (some false) 0 1) := by
    unfold hybrid_search
    rw [if_neg hcond]
    rfl
  have hsorted : (((ftsItems env query (resolvedTypes entity_types) filters).mergeSort
      scoreLe).take limit).Pairwise (fun a b => b.score ≤ a.score) := by
    have hs : ((ftsItems env query (resolvedTypes entity_types) filters).mergeSort
        scoreLe).Pairwise (fun a b => scoreLe a b) :=
      List.sorted_mergeSort
        (fun a b c h1 h2 => scoreLe_trans a b c h1 h2)
        (fun a b => scoreLe_total a b)
        (ftsItems env query (resolvedTypes entity_types) filters)
    have ht := List.Pairwise.sublist
      (List.take_sublist limit
        ((ftsItems env query (resolvedTypes entity_types) filters).mergeSort scoreLe)) hs
    refine ht.imp ?_
    intro a c h
    unfold scoreLe at h
    exact decide_eq_true_eq.mp h
  refine ⟨rfl, rfl, ?_, ?_, ?_, ?_, ?_, ?_, ?_⟩
  · intro cache
    cases cache <;> rfl
  · rw [hfull]
  · rw [hfull]
  · rw [hfull]
  · intro hemb
    have hfull2 : hybrid_search env (some true) query entity_types filters true limit
        = (SearchOutput.mk query
            (((ftsItems env query (resolvedTypes entity_types) filters).mergeSort
              scoreLe).take limit)
            ((((ftsItems env query (resolvedTypes entity_types) filters).mergeSort
              scoreLe).take limit)).length
            "fts_only" (some (resolvedTypes entity_types)),
          SearchEffects.mk (some true) 0 1) := by
      unfold hybrid_search
      rw [if_neg hcond]
      simp only [check_pgvector_available, embedChoice, hemb]
      rfl
    rw [hfull2]
    exact ⟨rfl, rfl⟩
  · rw [hfull]
    exact hsorted
  · rw [hfull]
    intro it hit
    have h1 := List.take_subset _ _ hit
    have h2 := (List.mem_mergeSort).mp h1
    exact ftsItems_scores env query (resolvedTypes entity_types) filters it h2

def c9env : SearchEnv :=
  SearchEnv.mk false (fun _ => none) [] (fun _ _ => 0) (fun _ _ => false) (fun _ _ => 0)

theorem C9_availability_cached_and_fts_fallback_witness :
    (("acme".isEmpty || decide ((pyStrip "acme").length < 2)) = false)
    ∧ check_pgvector_available c9env none = (c9env.probe, some c9env.probe, 1)
    ∧ (hybrid_search c9env (some false) "acme" none none true 20).1.search_type
        = "fts_only" := by
  have h := C9_availability_cached_and_fts_fallback c9env "acme" none none 20 false
    (by decide)
  exact ⟨by decide, h.2.1, h.2.2.2.1⟩

end InvestorDB
